import Mathlib

/-!
Verification of the table-reformatting core of `rst_tables.py`.

The source is Python 2, so `map` / `filter` are eager and produce lists; the
embedding below models every function of the parsing/rendering pipeline over
`List Char` lines.  Places where the Python can raise an exception
(`max()` over an empty sequence, an out-of-range list index) are modelled
with `Option`, `none` standing for the raised exception.
-/

namespace RstTables

/-- A raw text line (Python byte string), as a list of characters. -/
abbrev Line := List Char

/-- A table row: a list of cell strings (cells may embed newline characters). -/
abbrev Row := List (List Char)

/-- A table: a list of rows. -/
abbrev Table := List Row

/-- Python whitespace for byte strings: the characters matched by the regex
class of whitespace and stripped by `str.strip()`. -/
def isWS (c : Char) : Bool :=
  c == ' ' || c == '\t' || c == '\n' || c == '\x0d' || c == '\x0b' || c == '\x0c'

/-- `s.lstrip()`. -/
def ltrim (s : List Char) : List Char := s.dropWhile isWS

/-- `s.rstrip()`. -/
def rtrim (s : List Char) : List Char := (s.reverse.dropWhile isWS).reverse

/-- `s.strip()`. -/
def trim (s : List Char) : List Char := ltrim (rtrim s)

/-- Split a list at every element satisfying `p`, dropping those elements and
keeping empty pieces (the behaviour of Python `re.split` on a fixed
single-character separator, and of the partition loop of
`partition_raw_lines`). -/
def splitByP {α : Type} (p : α → Bool) : List α → List (List α)
  | [] => [[]]
  | x :: xs =>
    let r := splitByP p xs
    if p x then [] :: r else (x :: r.headI) :: r.tail

/-- `s.split(c)` for a single character `c` (also `field_text.split('\n')`). -/
def splitNL (c : List Char) : List (List Char) := splitByP (fun x => x == '\n') c

/-- `sep.join(pieces)` for Python strings. -/
def joinSep {α : Type} (sep : List α) : List (List α) → List α
  | [] => []
  | [x] => x
  | x :: y :: xs => x ++ sep ++ joinSep sep (y :: xs)

/-- `line_is_separator`: `re.match('^[\t +=-]+$', line)`.  There is no
stripping; the `+` requires a non-empty match, and the final `$` also matches
just before one trailing newline character. -/
def lineIsSeparator (l : Line) : Bool :=
  let core := if l.getLast? = some '\n' then l.dropLast else l
  !core.isEmpty && core.all (fun c => c == '\t' || c == ' ' || c == '+' || c == '=' || c == '-')

/-- `has_line_seps`. -/
def hasLineSeps (ls : List Line) : Bool := ls.any lineIsSeparator

/-- `partition_raw_lines`: with no separator line each raw line is its own
partition; otherwise the lines are split at separator lines and empty
partitions are discarded. -/
def partitionRawLines (raw : List Line) : List (List Line) :=
  if hasLineSeps raw then
    (splitByP lineIsSeparator raw).filter (fun p => !p.isEmpty)
  else
    raw.map (fun l => [l])

/-- The effect of `re.sub(r'^\s*\||\|\s*$', '', row_string)`: remove one
leading run of whitespace followed by `|` (if the first non-whitespace
character is a bar) and one trailing `|` followed by a run of whitespace (if
the last non-whitespace character is a bar). -/
def subOuterBars (s : List Char) : List Char :=
  let s1 := if (s.dropWhile isWS).head? = some '|' then (s.dropWhile isWS).tail else s
  let r := s1.reverse
  if (r.dropWhile isWS).head? = some '|' then ((r.dropWhile isWS).tail).reverse else s1

theorem dropWhile_len_le {α : Type} (p : α → Bool) : ∀ l : List α, (l.dropWhile p).length ≤ l.length
  | [] => Nat.le_refl _
  | x :: xs => by
    rw [List.dropWhile_cons]
    split
    · exact Nat.le_trans (dropWhile_len_le p xs) (Nat.le_succ _)
    · simp

/-- Scanner for `re.split(r'\s\s+', s)`.  The flag records that the scanner
is inside a whitespace run that started a match (such a run is consumed
entirely, greedily). -/
def sdwAux (skipping : Bool) : List Char → List (List Char)
  | [] => [[]]
  | x :: xs =>
    if skipping && isWS x then sdwAux true xs
    else if isWS x then
      match xs with
      | [] => [[x]]
      | y :: _ =>
        if isWS y then [] :: sdwAux true xs
        else (x :: (sdwAux false xs).headI) :: (sdwAux false xs).tail
    else (x :: (sdwAux false xs).headI) :: (sdwAux false xs).tail

/-- The effect of `re.split(r'\s\s+', s)`: split at every maximal run of at
least two whitespace characters (the run is dropped); single whitespace
characters are kept inside the pieces. -/
def splitDoubleWS (l : List Char) : List (List Char) := sdwAux false l

/-- `split_table_row`.  With a bar present, `re.split(r'\s*\|\s*', s)` on the
stripped string equals splitting at every bar and stripping each piece
(whitespace adjacent to a bar is consumed by the greedy `\s*`; interior
whitespace of a piece is kept). -/
def splitTableRow (s : Line) : List (List Char) :=
  if '|' ∈ s then
    (splitByP (fun c => c == '|') (trim (subOuterBars s))).map trim
  else
    splitDoubleWS (rtrim s)

/-- One enumerate step of the inner loop of `join_rows`: the contribution of
`row` to output column `i` (the stripped field text when it is non-empty). -/
def optEntry (r : Row) (i : Nat) : List (List Char) :=
  match r.get? i with
  | some f => if (trim f).isEmpty then [] else [trim f]
  | none => []

/-- One iteration of the outer loop of `join_rows`: grow the output to the
length of `row`, then append each non-blank stripped field to its column. -/
def joinRowsAux (out : List (List (List Char))) (row : Row) : List (List (List Char)) :=
  (List.range (max out.length row.length)).map (fun i => out.getD i [] ++ optEntry row i)

/-- `join_rows` (with the default separator `'\n'`). -/
def joinRows (rows : List Row) : Row :=
  (rows.foldl joinRowsAux []).map (joinSep ['\n'])

/-- Python `max` over a list of numbers: `none` models the `ValueError`
raised on an empty sequence. -/
def listMax : List Nat → Option Nat
  | [] => none
  | x :: xs => some (xs.foldl max x)

/-- `row += [''] * (max_fields - curr_len)` in `unify_table`. -/
def padRow (n : Nat) (r : Row) : Row := r ++ List.replicate (n - r.length) []

/-- `unify_table`: pad all rows to the maximal length, then drop every column
whose stripped cell is empty in all (padded) rows.  `none` models the
`ValueError` of `max()` on an empty table. -/
def unifyTable (t : Table) : Option Table :=
  match listMax (t.map (fun r => r.length)) with
  | none => none
  | some maxFields =>
    let padded := t.map (padRow maxFields)
    let emptyCol : Nat → Bool := fun i => padded.all (fun r => (trim (r.getD i [])).isEmpty)
    some (padded.map (fun r => (List.range r.length).filterMap
        (fun i => if emptyCol i then none else some (r.getD i []))))

/-- `parse_table`. -/
def parseTable (raw : List Line) : Option Table :=
  unifyTable ((partitionRawLines raw).map (fun part => joinRows (part.map splitTableRow)))

/-- `table_line`. -/
def tableLine (widths : List Nat) (header : Bool) : Line :=
  let lc := if header then '=' else '-'
  let parts := widths.map (fun w => List.replicate w lc)
  let parts2 := if parts.isEmpty then parts else [[]] ++ parts ++ [[]]
  joinSep ['+'] parts2

/-- The running maximum of the row lengths of a table (the final length of
the dynamically grown `widths` list of `get_column_widths`, and of the
output list of `join_rows`). -/
def maxLenR {α : Type} (t : List (List α)) : Nat := t.foldl (fun m r => max m r.length) 0

/-- `get_field_width`: the length of the longest embedded line of a cell. -/
def getFieldWidth (c : List Char) : Nat := (splitNL c).foldl (fun m l => max m l.length) 0

/-- `get_column_widths`. -/
def getColumnWidths (t : Table) : List Nat :=
  (List.range (maxLenR t)).map (fun i =>
    (t.filterMap (fun r => (r.get? i).map getFieldWidth)).foldl max 0)

/-- `split_row_into_lines`: turn one row into its list of visual lines.
`none` models the `ValueError` of `max()` when the row has no field. -/
def splitRowIntoLines (row : Row) : Option (List Row) :=
  let rowLines := row.map splitNL
  match listMax (rowLines.map (fun fl => fl.length)) with
  | none => none
  | some height => some ((List.range height).map (fun i => rowLines.map (fun fl => fl.getD i [])))

/-- `' %-ws ' % col.strip()`: one space, the stripped text left-justified to
width `w`, one space (no truncation when the text is longer than `w`). -/
def padOne (c : List Char) (w : Nat) : List Char :=
  [' '] ++ trim c ++ List.replicate (w - (trim c).length) ' ' ++ [' ']

/-- `pad_fields`: `none` models the `IndexError` when the row is longer than
the widths list. -/
def padFields (row : Row) (widths : List Nat) : Option Row :=
  if row.length ≤ widths.length then
    some ((row.zip widths).map (fun p => padOne p.1 p.2))
  else none

/-- `"|".join([''] + row_line + [''])`. -/
def barJoinRow (pr : Row) : Line := joinSep ['|'] ([[]] ++ pr ++ [[]])

/-- Sequential mapping in the `Option` monad (a loop that stops at the first
raised exception). -/
def optMapM {α β : Type} (f : α → Option β) : List α → Option (List β)
  | [] => some []
  | x :: xs => (f x).bind (fun y => (optMapM f xs).map (fun ys => y :: ys))

/-- The separator-appending loop of `draw_table`: the first row is followed
by the header line, every later row by the normal line. -/
def interleaveSeps (hl nl : Line) : List (List Line) → List Line
  | [] => []
  | b :: bs => b ++ [hl] ++ (bs.map (fun bb => bb ++ [nl])).flatten

/-- The visual lines of one row in `draw_table`: split the row, pad every
visual line, and join it with bars. -/
def rowBlock (ws : List Nat) (row : Row) : Option (List Line) :=
  (splitRowIntoLines row).bind (fun rls =>
    (optMapM (fun rl => padFields rl ws) rls).map (fun prls => prls.map barJoinRow))

/-- `draw_table`. -/
def drawTable (t : Table) : Option (List Line) :=
  if t.isEmpty then some [] else
    let ws := getColumnWidths t
    let hl := tableLine (ws.map (fun x => x + 2)) true
    let nl := tableLine (ws.map (fun x => x + 2)) false
    (optMapM (rowBlock ws) t).map (fun blocks => hl :: interleaveSeps hl nl blocks)

/-- The reformatting pipeline applied by `reformat_table` to the selected
block of lines: parse, then draw. -/
def reformatCore (raw : List Line) : Option (List Line) :=
  (parseTable raw).bind drawTable

/-! ### Generic `dropWhile` helpers -/

theorem dropWhile_append_all {α : Type} (p : α → Bool) (u v : List α)
    (h : ∀ x ∈ u, p x = true) : (u ++ v).dropWhile p = v.dropWhile p := by
  induction u with
  | nil => rfl
  | cons x xs ih =>
    have hx : p x = true := h x (List.mem_cons_self x xs)
    simp only [List.cons_append, List.dropWhile_cons, hx, if_true]
    exact ih (fun y hy => h y (List.mem_cons_of_mem x hy))

theorem dropWhile_append_ne {α : Type} (p : α → Bool) (u v : List α)
    (h : u.dropWhile p ≠ []) : (u ++ v).dropWhile p = u.dropWhile p ++ v := by
  induction u with
  | nil => simp at h
  | cons x xs ih =>
    cases hx : p x with
    | true =>
      simp only [List.dropWhile_cons, hx, if_true] at h
      simp only [List.cons_append, List.dropWhile_cons, hx, if_true]
      exact ih h
    | false =>
      simp [List.cons_append, List.dropWhile_cons, hx]

theorem mem_dropWhile {α : Type} (p : α → Bool) (l : List α) (x : α)
    (h : x ∈ l.dropWhile p) : x ∈ l := by
  induction l with
  | nil => simp at h
  | cons y ys ih =>
    rw [List.dropWhile_cons] at h
    by_cases hy : p y = true
    · simp only [hy, if_true] at h
      exact List.mem_cons_of_mem y (ih h)
    · simp only [Bool.not_eq_true] at hy
      simp only [hy] at h
      simpa using h

/-! ### `ltrim` / `rtrim` / `trim` helpers -/

theorem ltrim_nil : ltrim [] = [] := rfl

theorem rtrim_nil : rtrim [] = [] := rfl

theorem ltrim_eq_nil_iff (s : List Char) : ltrim s = [] ↔ ∀ x ∈ s, isWS x := by
  simp [ltrim, List.dropWhile_eq_nil_iff]

theorem rtrim_eq_nil_iff (s : List Char) : rtrim s = [] ↔ ∀ x ∈ s, isWS x := by
  unfold rtrim
  rw [List.reverse_eq_nil_iff, List.dropWhile_eq_nil_iff]
  constructor
  · intro h x hx
    exact h x (List.mem_reverse.mpr hx)
  · intro h x hx
    exact h x (List.mem_reverse.mp hx)

theorem mem_ltrim (s : List Char) (x : Char) (h : x ∈ ltrim s) : x ∈ s :=
  mem_dropWhile _ _ _ h

theorem mem_rtrim (s : List Char) (x : Char) (h : x ∈ rtrim s) : x ∈ s := by
  unfold rtrim at h
  have h1 : x ∈ s.reverse.dropWhile isWS := List.mem_reverse.mp h
  exact List.mem_reverse.mp (mem_dropWhile _ _ _ h1)

theorem mem_trim (s : List Char) (x : Char) (h : x ∈ trim s) : x ∈ s :=
  mem_rtrim _ _ (mem_ltrim _ _ h)

theorem ltrim_append_ws (a s : List Char) (h : ∀ x ∈ a, isWS x) :
    ltrim (a ++ s) = ltrim s :=
  dropWhile_append_all _ _ _ h

theorem rtrim_append_ws (s b : List Char) (h : ∀ x ∈ b, isWS x) :
    rtrim (s ++ b) = rtrim s := by
  unfold rtrim
  rw [List.reverse_append, dropWhile_append_all]
  intro x hx
  exact h x (List.mem_reverse.mp hx)

theorem ltrim_append_of_ne (a s : List Char) (h : ltrim a ≠ []) :
    ltrim (a ++ s) = ltrim a ++ s :=
  dropWhile_append_ne _ _ _ h

theorem rtrim_append_of_ne (a s : List Char) (h : rtrim s ≠ []) :
    rtrim (a ++ s) = a ++ rtrim s := by
  unfold rtrim at *
  rw [List.reverse_append, dropWhile_append_ne, List.reverse_append, List.reverse_reverse]
  intro hc
  exact h (by rw [hc]; rfl)

theorem ltrim_cons_head (a : List Char) (x : Char) (r : List Char) (hx : isWS x = false) :
    ltrim (a ++ x :: r) = ltrim a ++ x :: r := by
  by_cases h : ltrim a = []
  · rw [ltrim_append_ws a _ ((ltrim_eq_nil_iff a).mp h), h, List.nil_append]
    unfold ltrim
    rw [List.dropWhile_cons, hx]
    simp
  · exact ltrim_append_of_ne a _ h

theorem rtrim_ne_nil_of_mem (s : List Char) (x : Char) (hx : x ∈ s) (hw : isWS x = false) :
    rtrim s ≠ [] := by
  intro h
  rw [rtrim_eq_nil_iff] at h
  rw [h x hx] at hw
  exact Bool.true_eq_false.mp hw

theorem ltrim_ne_nil_of_mem (s : List Char) (x : Char) (hx : x ∈ s) (hw : isWS x = false) :
    ltrim s ≠ [] := by
  intro h
  rw [ltrim_eq_nil_iff] at h
  rw [h x hx] at hw
  exact Bool.true_eq_false.mp hw

theorem dropWhile_idem {α : Type} (p : α → Bool) :
    ∀ l : List α, (l.dropWhile p).dropWhile p = l.dropWhile p
  | [] => rfl
  | x :: xs => by
    rw [List.dropWhile_cons]
    by_cases hx : p x = true
    · rw [if_pos hx]
      exact dropWhile_idem p xs
    · rw [if_neg hx, List.dropWhile_cons, if_neg hx]

theorem ltrim_idem (s : List Char) : ltrim (ltrim s) = ltrim s :=
  dropWhile_idem isWS s

theorem rtrim_idem (s : List Char) : rtrim (rtrim s) = rtrim s := by
  unfold rtrim
  rw [List.reverse_reverse, dropWhile_idem]

theorem rtrim_cons (c : Char) (t : List Char) :
    rtrim (c :: t) =
      if rtrim t = [] then (if isWS c then [] else [c]) else c :: rtrim t := by
  have h2 : (c :: t) = [c] ++ t := rfl
  by_cases h : rtrim t = []
  · rw [if_pos h]
    have hall : ∀ x ∈ t, isWS x := (rtrim_eq_nil_iff t).mp h
    rw [h2, rtrim_append_ws [c] t hall]
    by_cases hc : isWS c = true
    · rw [if_pos hc]
      exact (rtrim_eq_nil_iff [c]).mpr (by intro x hx; simp at hx; rw [hx]; exact hc)
    · rw [if_neg hc]
      simp [rtrim, hc]
  · rw [if_neg h, h2, rtrim_append_of_ne [c] t h]
    rfl

theorem ltrim_cons_ws (c : Char) (t : List Char) (hc : isWS c = true) :
    ltrim (c :: t) = ltrim t := by
  simp [ltrim, List.dropWhile_cons, hc]

theorem ltrim_cons_not_ws (c : Char) (t : List Char) (hc : isWS c = false) :
    ltrim (c :: t) = c :: t := by
  simp [ltrim, List.dropWhile_cons, hc]

theorem rtrim_ltrim_comm (s : List Char) : rtrim (ltrim s) = ltrim (rtrim s) := by
  induction s with
  | nil => rfl
  | cons c t ih =>
    have hrc := rtrim_cons c t
    by_cases hc : isWS c = true
    · rw [ltrim_cons_ws c t hc, ih, hrc]
      by_cases h : rtrim t = []
      · rw [if_pos h, if_pos hc, h]
      · rw [if_neg h, ltrim_cons_ws c _ hc]
    · have hc' : isWS c = false := by
        cases hcc : isWS c
        · rfl
        · exact absurd hcc hc
      rw [ltrim_cons_not_ws c t hc', hrc]
      by_cases h : rtrim t = []
      · rw [if_pos h, if_neg hc, ltrim_cons_not_ws c [] hc']
      · rw [if_neg h, ltrim_cons_not_ws c _ hc']

theorem trim_ltrim (s : List Char) : trim (ltrim s) = trim s := by
  unfold trim
  rw [rtrim_ltrim_comm, ltrim_idem]

theorem trim_rtrim (s : List Char) : trim (rtrim s) = trim s := by
  unfold trim
  rw [rtrim_idem]

theorem trim_append_ws_right (s b : List Char) (h : ∀ x ∈ b, isWS x) :
    trim (s ++ b) = trim s := by
  unfold trim
  rw [rtrim_append_ws s b h]

theorem trim_append_ws_left (a s : List Char) (h : ∀ x ∈ a, isWS x) :
    trim (a ++ s) = trim s := by
  by_cases hs : rtrim s = []
  · have hall : ∀ x ∈ a ++ s, isWS x := by
      intro x hx
      rcases List.mem_append.mp hx with hx | hx
      · exact h x hx
      · exact (rtrim_eq_nil_iff s).mp hs x hx
    unfold trim
    rw [hs, (rtrim_eq_nil_iff (a ++ s)).mpr hall]
  · unfold trim
    rw [rtrim_append_of_ne a s hs, ltrim_append_ws a _ h]

theorem trim_trim (s : List Char) : trim (trim s) = trim s := by
  have h1 : trim (ltrim (rtrim s)) = trim (rtrim s) := trim_ltrim (rtrim s)
  have h2 : trim (rtrim s) = trim s := trim_rtrim s
  calc trim (trim s) = trim (ltrim (rtrim s)) := rfl
  _ = trim (rtrim s) := h1
  _ = trim s := h2

/-! ### `splitByP` helpers -/

theorem splitByP_ne_nil {α : Type} (p : α → Bool) (l : List α) : splitByP p l ≠ [] := by
  cases l with
  | nil => simp [splitByP]
  | cons x xs =>
    unfold splitByP
    by_cases hx : p x = true
    · simp [hx]
    · simp [hx]

theorem cons_headI_tail {α : Type} (R : List (List α)) (h : R ≠ []) :
    R = R.headI :: R.tail := by
  cases R with
  | nil => exact absurd rfl h
  | cons q qs => rfl

theorem headI_append {α : Type} (S T : List (List α)) (h : S ≠ []) :
    (S ++ T).headI = S.headI := by
  cases S with
  | nil => exact absurd rfl h
  | cons q qs => rfl

theorem tail_append {α : Type} (S T : List (List α)) (h : S ≠ []) :
    (S ++ T).tail = S.tail ++ T := by
  cases S with
  | nil => exact absurd rfl h
  | cons q qs => rfl

theorem map_of_ne_nil {α β : Type} (f : List α → β) (R : List (List α)) (h : R ≠ []) :
    R.map f = f R.headI :: R.tail.map f := by
  cases R with
  | nil => exact absurd rfl h
  | cons q qs => rfl

theorem splitByP_nil {α : Type} (p : α → Bool) : splitByP p ([] : List α) = [[]] := rfl

theorem splitByP_cons {α : Type} (p : α → Bool) (x : α) (xs : List α) :
    splitByP p (x :: xs) =
      if p x then [] :: splitByP p xs
      else (x :: (splitByP p xs).headI) :: (splitByP p xs).tail := rfl

theorem splitByP_all_neg {α : Type} (p : α → Bool) (l : List α)
    (h : ∀ x ∈ l, p x = false) : splitByP p l = [l] := by
  induction l with
  | nil => rfl
  | cons x xs ih =>
    have hx : p x = false := h x (List.mem_cons_self x xs)
    rw [splitByP_cons, ih (fun y hy => h y (List.mem_cons_of_mem x hy)), if_neg (by simp [hx])]
    rfl

theorem splitByP_append_sep {α : Type} (p : α → Bool) (a : List α) (s : α) (r : List α)
    (ha : ∀ x ∈ a, p x = false) (hs : p s = true) :
    splitByP p (a ++ s :: r) = a :: splitByP p r := by
  induction a with
  | nil =>
    rw [List.nil_append, splitByP_cons, if_pos hs]
  | cons x xs ih =>
    have hx : p x = false := ha x (List.mem_cons_self x xs)
    have ih2 := ih (fun y hy => ha y (List.mem_cons_of_mem x hy))
    rw [List.cons_append, splitByP_cons, ih2, if_neg (by simp [hx])]
    rfl

theorem splitByP_mem {α : Type} (p : α → Bool) :
    ∀ (l : List α) (q : List α) (x : α),
      q ∈ splitByP p l → x ∈ q → x ∈ l ∧ p x = false
  | [], q, x, hq, hx => by
    rw [splitByP_nil, List.mem_singleton] at hq
    subst hq
    simp at hx
  | y :: ys, q, x, hq, hx => by
    rw [splitByP_cons] at hq
    have hR := splitByP_ne_nil p ys
    by_cases hy : p y = true
    · rw [if_pos hy] at hq
      rcases List.mem_cons.mp hq with h1 | h1
      · subst h1
        simp at hx
      · obtain ⟨h2, h3⟩ := splitByP_mem p ys q x h1 hx
        exact ⟨List.mem_cons_of_mem y h2, h3⟩
    · rw [if_neg hy] at hq
      rcases List.mem_cons.mp hq with h1 | h1
      · subst h1
        rcases List.mem_cons.mp hx with h2 | h2
        · subst h2
          exact ⟨List.mem_cons_self x ys, by simpa using hy⟩
        · have hmem : (splitByP p ys).headI ∈ splitByP p ys := by
            rw [cons_headI_tail _ hR]
            exact List.mem_cons_self _ _
          obtain ⟨h3, h4⟩ := splitByP_mem p ys _ x hmem h2
          exact ⟨List.mem_cons_of_mem y h3, h4⟩
      · have hmem : q ∈ splitByP p ys := by
          rw [cons_headI_tail _ hR]
          exact List.mem_cons_of_mem _ h1
        obtain ⟨h3, h4⟩ := splitByP_mem p ys q x hmem hx
        exact ⟨List.mem_cons_of_mem y h3, h4⟩

theorem splitByP_joinSep {α : Type} (p : α → Bool) (sep : α) (hs : p sep = true) :
    ∀ ps : List (List α), ps ≠ [] → (∀ q ∈ ps, ∀ x ∈ q, p x = false) →
      splitByP p (joinSep [sep] ps) = ps
  | [], h, _ => absurd rfl h
  | [q], _, hq => by
    show splitByP p q = [q]
    exact splitByP_all_neg p q (hq q (List.mem_cons_self q []))
  | q :: q' :: rest, _, hq => by
    show splitByP p (q ++ [sep] ++ joinSep [sep] (q' :: rest)) = q :: q' :: rest
    rw [List.append_assoc, List.singleton_append,
      splitByP_append_sep p q sep _ (hq q (List.mem_cons_self _ _)) hs,
      splitByP_joinSep p sep hs (q' :: rest) (by simp)
        (fun r hr x hx => hq r (List.mem_cons_of_mem q hr) x hx)]

/-- Append one element to the last piece of a non-empty list of pieces. -/
def snocPiece {α : Type} : List (List α) → α → List (List α)
  | [], x => [[x]]
  | [s], x => [s ++ [x]]
  | s :: r :: t, x => s :: snocPiece (r :: t) x

theorem snocPiece_cons {α : Type} (q : List α) (S : List (List α)) (x : α) (h : S ≠ []) :
    snocPiece (q :: S) x = q :: snocPiece S x := by
  cases S with
  | nil => exact absurd rfl h
  | cons r t => rfl

theorem splitByP_snoc {α : Type} (p : α → Bool) (xs : List α) (x : α) :
    splitByP p (xs ++ [x]) =
      if p x then splitByP p xs ++ [[]] else snocPiece (splitByP p xs) x := by
  induction xs with
  | nil =>
    rw [List.nil_append, splitByP_nil, splitByP_cons, splitByP_nil]
    by_cases hx : p x = true
    · rw [if_pos hx, if_pos hx]
      rfl
    · rw [if_neg hx, if_neg hx]
      rfl
  | cons y ys ih =>
    have hS := splitByP_ne_nil p ys
    rw [List.cons_append, splitByP_cons, ih, splitByP_cons]
    by_cases hx : p x = true
    · rw [if_pos hx, if_pos hx]
      by_cases hy : p y = true
      · rw [if_pos hy, if_pos hy]
        rfl
      · rw [if_neg hy, if_neg hy, headI_append _ _ hS, tail_append _ _ hS]
        rfl
    · rw [if_neg hx, if_neg hx]
      by_cases hy : p y = true
      · rw [if_pos hy, if_pos hy, snocPiece_cons _ _ _ hS]
      · rw [if_neg hy, if_neg hy]
        cases h : splitByP p ys with
        | nil => exact absurd h hS
        | cons s0 S' =>
          cases S' with
          | nil => simp [snocPiece]
          | cons s1 S'' => simp [snocPiece]

theorem map_trim_snocPiece_ws (x : Char) (hx : isWS x = true) :
    ∀ S : List (List Char), S ≠ [] → (snocPiece S x).map trim = S.map trim
  | [], h => absurd rfl h
  | [s], _ => by
    show [trim (s ++ [x])] = [trim s]
    rw [trim_append_ws_right s [x] (by intro y hy; simp at hy; rw [hy]; exact hx)]
  | s :: r :: t, _ => by
    rw [snocPiece_cons s (r :: t) x (by simp)]
    show trim s :: (snocPiece (r :: t) x).map trim = trim s :: (r :: t).map trim
    rw [map_trim_snocPiece_ws x hx (r :: t) (by simp)]

theorem bool_false_of_ne_true {b : Bool} (h : ¬ b = true) : b = false := by
  cases hb : b
  · rfl
  · exact absurd hb h

theorem trim_cons_ws (c : Char) (s : List Char) (hc : isWS c = true) :
    trim (c :: s) = trim s := by
  have h2 : (c :: s) = [c] ++ s := rfl
  rw [h2, trim_append_ws_left [c] s (by intro x hx; simp at hx; rw [hx]; exact hc)]

theorem isWS_not_bar (c : Char) (h : isWS c = true) : (c == '|') = false := by
  by_cases hc : c = '|'
  · subst hc
    exact absurd h (by decide)
  · exact beq_eq_false_iff_ne.mpr hc

theorem map_trim_split_ltrim (X : List Char) :
    (splitByP (fun c => c == '|') (ltrim X)).map trim
      = (splitByP (fun c => c == '|') X).map trim := by
  induction X with
  | nil => rfl
  | cons c xs ih =>
    by_cases hc : isWS c = true
    · have hR := splitByP_ne_nil (fun c => c == '|') xs
      rw [ltrim_cons_ws c xs hc, ih, splitByP_cons, if_neg (by simp [isWS_not_bar c hc]),
        map_of_ne_nil trim _ hR]
      simp only [List.map_cons]
      rw [trim_cons_ws c _ hc]
    · rw [ltrim_cons_not_ws c xs (bool_false_of_ne_true hc)]

theorem map_trim_split_rtrim (X : List Char) :
    (splitByP (fun c => c == '|') (rtrim X)).map trim
      = (splitByP (fun c => c == '|') X).map trim := by
  induction X using List.reverseRecOn with
  | nil => rfl
  | append_singleton xs x ih =>
    by_cases hx : isWS x = true
    · rw [rtrim_append_ws xs [x] (by intro y hy; simp at hy; rw [hy]; exact hx), ih,
        splitByP_snoc, if_neg (by simp [isWS_not_bar x hx]),
        map_trim_snocPiece_ws x hx _ (splitByP_ne_nil _ xs)]
    · have h1 : rtrim ([x] : List Char) = [x] := by
        rw [rtrim_cons x [], rtrim_nil, if_pos rfl, if_neg hx]
      rw [rtrim_append_of_ne xs [x] (by rw [h1]; simp), h1]

theorem trim_def (s : List Char) : trim s = ltrim (rtrim s) := rfl

theorem map_trim_split_trim (X : List Char) :
    (splitByP (fun c => c == '|') (trim X)).map trim
      = (splitByP (fun c => c == '|') X).map trim := by
  rw [trim_def X, map_trim_split_ltrim, map_trim_split_rtrim]

/-! ### `joinSep` helpers -/

theorem joinSep_cons_of_ne {α : Type} (sep : List α) (q : List α) (R : List (List α))
    (h : R ≠ []) : joinSep sep (q :: R) = q ++ sep ++ joinSep sep R := by
  cases R with
  | nil => exact absurd rfl h
  | cons r t => rfl

theorem joinSep_append_nil {α : Type} (sep : List α) :
    ∀ ps : List (List α), ps ≠ [] → joinSep sep (ps ++ [[]]) = joinSep sep ps ++ sep
  | [], h => absurd rfl h
  | [q], _ => by
    show joinSep sep [q, []] = q ++ sep
    rw [joinSep_cons_of_ne sep q [[]] (by simp)]
    simp [joinSep]
  | q :: q' :: rest, _ => by
    rw [show (q :: q' :: rest) ++ [[]] = q :: ((q' :: rest) ++ [[]]) from rfl,
      joinSep_cons_of_ne sep q _ (by simp),
      joinSep_append_nil sep (q' :: rest) (by simp),
      joinSep_cons_of_ne sep q (q' :: rest) (by simp)]
    simp [List.append_assoc]

theorem barJoinRow_eq (pr : Row) (h : pr ≠ []) :
    barJoinRow pr = '|' :: (joinSep ['|'] pr ++ ['|']) := by
  unfold barJoinRow
  rw [show ([[]] ++ pr ++ [[]] : List (List Char)) = [] :: (pr ++ [[]]) from rfl,
    joinSep_cons_of_ne ['|'] [] (pr ++ [[]]) (by simp),
    joinSep_append_nil ['|'] pr h]
  rfl

theorem subOuterBars_wrap (mid : List Char) :
    subOuterBars ('|' :: mid ++ ['|']) = mid := by
  have hbar : isWS '|' = false := rfl
  have h1 : List.dropWhile isWS ('|' :: (mid ++ ['|'])) = '|' :: (mid ++ ['|']) := by
    rw [List.dropWhile_cons, hbar]
    simp
  have h2 : List.dropWhile isWS ('|' :: mid.reverse) = '|' :: mid.reverse := by
    rw [List.dropWhile_cons, hbar]
    simp
  simp [subOuterBars, h1, h2, List.reverse_append]

/-- `split_table_row` applied to a bar-joined rendered data line recovers the
stripped pieces. -/
theorem splitTableRow_barJoin (pr : Row) (hne : pr ≠ [])
    (hbar : ∀ q ∈ pr, ∀ x ∈ q, (x == '|') = false) :
    splitTableRow (barJoinRow pr) = pr.map trim := by
  rw [barJoinRow_eq pr hne]
  unfold splitTableRow
  rw [if_pos (List.mem_cons_self '|' _)]
  rw [show ('|' :: (joinSep ['|'] pr ++ ['|'])) = '|' :: joinSep ['|'] pr ++ ['|'] from rfl,
    subOuterBars_wrap (joinSep ['|'] pr), map_trim_split_trim (joinSep ['|'] pr),
    splitByP_joinSep (fun c => c == '|') '|' rfl pr hne hbar]

theorem trim_length_le (s : List Char) : (trim s).length ≤ s.length := by
  have h1 : ∀ t : List Char, (ltrim t).length ≤ t.length := fun t => dropWhile_len_le _ t
  have h2 : (rtrim s).length ≤ s.length := by
    unfold rtrim
    rw [List.length_reverse]
    calc (s.reverse.dropWhile isWS).length ≤ s.reverse.length := dropWhile_len_le _ _
    _ = s.length := List.length_reverse s
  exact Nat.le_trans (h1 (rtrim s)) h2

theorem sdwAux_nil (b : Bool) : sdwAux b [] = [[]] := rfl

theorem sdwAux_cons (b : Bool) (x : Char) (xs : List Char) :
    sdwAux b (x :: xs) =
      if b && isWS x then sdwAux true xs
      else if isWS x then
        match xs with
        | [] => [[x]]
        | y :: _ =>
          if isWS y then [] :: sdwAux true xs
          else (x :: (sdwAux false xs).headI) :: (sdwAux false xs).tail
      else (x :: (sdwAux false xs).headI) :: (sdwAux false xs).tail := rfl

theorem sdwAux_ne_nil : ∀ (b : Bool) (l : List Char), sdwAux b l ≠ []
  | _, [] => by simp [sdwAux_nil]
  | b, x :: xs => by
    rw [sdwAux_cons]
    by_cases h1 : (b && isWS x) = true
    · rw [if_pos h1]
      exact sdwAux_ne_nil true xs
    · rw [if_neg h1]
      by_cases h2 : isWS x = true
      · rw [if_pos h2]
        cases xs with
        | nil => simp
        | cons y ys =>
          dsimp only
          by_cases h3 : isWS y = true
          · rw [if_pos h3]
            simp
          · rw [if_neg h3]
            simp
      · rw [if_neg h2]
        simp

theorem splitDoubleWS_ne_nil (l : List Char) : splitDoubleWS l ≠ [] :=
  sdwAux_ne_nil false l

theorem sdwAux_mem : ∀ (b : Bool) (l : List Char) (q : List Char) (x : Char),
    q ∈ sdwAux b l → x ∈ q → x ∈ l
  | _, [], q, x, hq, hx => by
    simp [sdwAux] at hq
    subst hq
    simp at hx
  | b, c :: cs, q, x, hq, hx => by
    rw [sdwAux_cons] at hq
    by_cases h1 : (b && isWS c) = true
    · rw [if_pos h1] at hq
      exact List.mem_cons_of_mem c (sdwAux_mem true cs q x hq hx)
    · rw [if_neg h1] at hq
      by_cases h2 : isWS c = true
      · rw [if_pos h2] at hq
        cases cs with
        | nil =>
          simp at hq
          subst hq
          simpa using hx
        | cons y ys =>
          dsimp only at hq
          by_cases h3 : isWS y = true
          · rw [if_pos h3] at hq
            rcases List.mem_cons.mp hq with h4 | h4
            · subst h4
              simp at hx
            · exact List.mem_cons_of_mem c (sdwAux_mem true (y :: ys) q x h4 hx)
          · rw [if_neg h3] at hq
            have hR := sdwAux_ne_nil false (y :: ys)
            rcases List.mem_cons.mp hq with h4 | h4
            · subst h4
              rcases List.mem_cons.mp hx with h5 | h5
              · subst h5
                exact List.mem_cons_self x _
              · have hmem : (sdwAux false (y :: ys)).headI ∈ sdwAux false (y :: ys) := by
                  rw [cons_headI_tail _ hR]
                  exact List.mem_cons_self _ _
                exact List.mem_cons_of_mem c (sdwAux_mem false (y :: ys) _ x hmem h5)
            · have hmem : q ∈ sdwAux false (y :: ys) := by
                rw [cons_headI_tail _ hR]
                exact List.mem_cons_of_mem _ h4
              exact List.mem_cons_of_mem c (sdwAux_mem false (y :: ys) q x hmem hx)
      · rw [if_neg h2] at hq
        have hR := sdwAux_ne_nil false cs
        rcases List.mem_cons.mp hq with h4 | h4
        · subst h4
          rcases List.mem_cons.mp hx with h5 | h5
          · subst h5
            exact List.mem_cons_self x _
          · have hmem : (sdwAux false cs).headI ∈ sdwAux false cs := by
              rw [cons_headI_tail _ hR]
              exact List.mem_cons_self _ _
            exact List.mem_cons_of_mem c (sdwAux_mem false cs _ x hmem h5)
        · have hmem : q ∈ sdwAux false cs := by
            rw [cons_headI_tail _ hR]
            exact List.mem_cons_of_mem _ h4
          exact List.mem_cons_of_mem c (sdwAux_mem false cs q x hmem hx)

theorem mem_subOuterBars (s : List Char) (x : Char) (h : x ∈ subOuterBars s) : x ∈ s := by
  simp only [subOuterBars] at h
  by_cases hc1 : (s.dropWhile isWS).head? = some '|'
  · rw [if_pos hc1] at h
    by_cases hc2 : (((s.dropWhile isWS).tail).reverse.dropWhile isWS).head? = some '|'
    · rw [if_pos hc2] at h
      have h1 := List.mem_reverse.mp h
      have h2 := mem_dropWhile _ _ _ (List.mem_of_mem_tail h1)
      have h3 := List.mem_reverse.mp h2
      exact mem_dropWhile _ _ _ (List.mem_of_mem_tail h3)
    · rw [if_neg hc2] at h
      exact mem_dropWhile _ _ _ (List.mem_of_mem_tail h)
  · rw [if_neg hc1] at h
    by_cases hc2 : (s.reverse.dropWhile isWS).head? = some '|'
    · rw [if_pos hc2] at h
      have h1 := List.mem_reverse.mp h
      have h2 := mem_dropWhile _ _ _ (List.mem_of_mem_tail h1)
      exact List.mem_reverse.mp h2
    · rw [if_neg hc2] at h
      exact h

theorem splitTableRow_mem (l : Line) (q : List Char) (x : Char)
    (hq : q ∈ splitTableRow l) (hx : x ∈ q) : x ∈ l ∧ x ≠ '|' := by
  unfold splitTableRow at hq
  by_cases hb : '|' ∈ l
  · rw [if_pos hb] at hq
    rcases List.mem_map.mp hq with ⟨q', hq', hqe⟩
    subst hqe
    have hx' : x ∈ q' := mem_trim _ _ hx
    obtain ⟨h1, h2⟩ := splitByP_mem (fun c => c == '|') _ q' x hq' hx'
    have h3 : x ∈ subOuterBars l := mem_rtrim _ _ (mem_ltrim _ _ h1)
    exact ⟨mem_subOuterBars l x h3, by simpa using h2⟩
  · rw [if_neg hb] at hq
    have h1 : x ∈ rtrim l := sdwAux_mem false (rtrim l) q x hq hx
    have h2 : x ∈ l := mem_rtrim _ _ h1
    exact ⟨h2, fun he => hb (he ▸ h2)⟩

/-! ### `listMax` / `foldl max` / `range` helpers -/

theorem foldl_max_of_le (xs : List Nat) : ∀ acc, (∀ a ∈ xs, a ≤ acc) → xs.foldl max acc = acc := by
  induction xs with
  | nil => intro acc _; rfl
  | cons x xs ih =>
    intro acc h
    rw [List.foldl_cons, Nat.max_eq_left (h x (List.mem_cons_self x xs))]
    exact ih acc (fun a ha => h a (List.mem_cons_of_mem x ha))

theorem le_foldl_max (xs : List Nat) : ∀ acc, acc ≤ xs.foldl max acc := by
  induction xs with
  | nil => intro acc; exact Nat.le_refl acc
  | cons x xs ih =>
    intro acc
    exact Nat.le_trans (Nat.le_max_left acc x) (ih (max acc x))

theorem mem_le_foldl_max (xs : List Nat) : ∀ acc a, a ∈ xs → a ≤ xs.foldl max acc := by
  induction xs with
  | nil => intro _ _ h; simp at h
  | cons x xs ih =>
    intro acc a ha
    rcases List.mem_cons.mp ha with h | h
    · subst h
      exact Nat.le_trans (Nat.le_max_right acc a) (le_foldl_max xs (max acc a))
    · exact ih (max acc x) a h

theorem foldl_maxLen_eq (t : List (List α)) :
    ∀ a, t.foldl (fun m r => max m r.length) a = (t.map (fun r => r.length)).foldl max a := by
  induction t with
  | nil => intro a; rfl
  | cons r rs ih => intro a; exact ih (max a r.length)

theorem listMax_map_length {α : Type} (t : List (List α)) (h : t ≠ []) :
    listMax (t.map (fun r => r.length)) = some (maxLenR t) := by
  cases t with
  | nil => exact absurd rfl h
  | cons r rs =>
    unfold listMax maxLenR
    simp only [List.map_cons, List.foldl_cons]
    rw [foldl_maxLen_eq rs (max 0 r.length), Nat.max_comm 0 r.length, Nat.max_zero]

theorem len_le_maxLenR {α : Type} (t : List (List α)) (r : List α) (h : r ∈ t) :
    r.length ≤ maxLenR t := by
  unfold maxLenR
  rw [foldl_maxLen_eq]
  exact mem_le_foldl_max _ 0 r.length (List.mem_map_of_mem _ h)

theorem maxLenR_all_eq {α : Type} (t : List (List α)) (n : Nat) (h : t ≠ [])
    (ha : ∀ r ∈ t, r.length = n) : maxLenR t = n := by
  cases t with
  | nil => exact absurd rfl h
  | cons r rs =>
    unfold maxLenR
    rw [foldl_maxLen_eq]
    simp only [List.map_cons, List.foldl_cons]
    rw [Nat.max_comm 0 r.length, Nat.max_zero, ha r (List.mem_cons_self r rs)]
    exact foldl_max_of_le _ n (by
      intro a hma
      rcases List.mem_map.mp hma with ⟨r', hr', he⟩
      rw [← he, ha r' (List.mem_cons_of_mem r hr')])

theorem map_getD_range {α : Type} (l : List α) (d : α) :
    (List.range l.length).map (fun i => l.getD i d) = l := by
  induction l with
  | nil => rfl
  | cons x xs ih =>
    have hcomp : ((fun i => (x :: xs).getD i d) ∘ Nat.succ) = (fun i => xs.getD i d) := by
      funext i
      simp [List.getD_cons_succ]
    rw [List.length_cons, List.range_succ_eq_map, List.map_cons, List.map_map, hcomp, ih]
    simp [List.getD_cons_zero]

theorem filterMap_if_eq_filter_map {α β : Type} (p : α → Bool) (g : α → β) (l : List α) :
    l.filterMap (fun i => if p i then none else some (g i))
      = (l.filter (fun i => !p i)).map g := by
  induction l with
  | nil => rfl
  | cons x xs ih =>
    rw [List.filterMap_cons, List.filter_cons]
    by_cases hx : p x = true
    · rw [if_pos hx, hx]
      simpa using ih
    · rw [if_neg hx, bool_false_of_ne_true hx]
      simp only [Bool.not_false, if_pos]
      rw [List.map_cons, ih]

theorem length_filter_add_length_filter_not {α : Type} (p : α → Bool) (l : List α) :
    (l.filter p).length + (l.filter (fun x => !p x)).length = l.length := by
  induction l with
  | nil => rfl
  | cons x xs ih =>
    by_cases hx : p x = true
    · rw [List.filter_cons, List.filter_cons, if_pos hx, if_neg (by simp [hx])]
      simp only [List.length_cons]
      omega
    · have hx' := bool_false_of_ne_true hx
      rw [List.filter_cons, List.filter_cons, if_neg (by simp [hx']), if_pos (by simp [hx'])]
      simp only [List.length_cons]
      omega

/-! ### `unify_table` characterisation -/

/-- The padded table built by the first loop of `unify_table`. -/
def paddedT (t : Table) : Table := t.map (padRow (maxLenR t))

/-- The `empty_cols[i]` flag of `unify_table`. -/
def emptyColB (t : Table) (i : Nat) : Bool :=
  (paddedT t).all (fun r => (trim (r.getD i [])).isEmpty)

/-- The indices of the surviving (not all-blank) columns, in order. -/
def keepIdx (t : Table) : List Nat :=
  (List.range (maxLenR t)).filter (fun i => !emptyColB t i)

theorem padRow_length (n : Nat) (r : Row) (h : r.length ≤ n) : (padRow n r).length = n := by
  simp only [padRow, List.length_append, List.length_replicate]
  omega

theorem unifyTable_eq (t : Table) (h : t ≠ []) :
    unifyTable t = some ((paddedT t).map (fun r => (keepIdx t).map (fun i => r.getD i []))) := by
  unfold unifyTable
  rw [listMax_map_length t h]
  simp only [Option.some.injEq]
  show (paddedT t).map _ = _
  apply List.map_congr_left
  intro r hr
  rcases List.mem_map.mp hr with ⟨r0, hr0, he⟩
  have hlen : r.length = maxLenR t := by
    rw [← he]
    exact padRow_length _ _ (len_le_maxLenR t r0 hr0)
  rw [hlen, filterMap_if_eq_filter_map]
  rfl

/-! ### Claims C6, C8, C3, C4 -/

/-- C6 counterexample: the line consisting of three spaces is classified as a
separator by the code, yet after stripping it is empty, so the claimed
iff-characterisation fails on it. -/
theorem C6_counterexample :
    ¬ (lineIsSeparator [' ', ' ', ' '] = true ↔
        (trim [' ', ' ', ' '] ≠ [] ∧
          ∀ c ∈ trim [' ', ' ', ' '], c ∈ ['\t', ' ', '+', '=', '-'])) := by
  decide

/-- C6 (amended): for every input line that contains no newline character,
`line_is_separator` classifies the line as a separator iff the line is
non-empty and consists solely of characters from the set
tab, space, `+`, `=`, `-`.  No stripping is applied, so a non-empty line of
only whitespace IS a separator. -/
theorem C6_amended (l : Line) (h : '\n' ∉ l) :
    lineIsSeparator l = true ↔ (l ≠ [] ∧ ∀ c ∈ l, c ∈ ['\t', ' ', '+', '=', '-']) := by
  have hcore : (if l.getLast? = some '\n' then l.dropLast else l) = l := by
    rw [if_neg]
    intro hc
    obtain ⟨hne, heq⟩ := List.mem_getLast?_eq_getLast (show '\n' ∈ l.getLast? from hc)
    exact h (by rw [heq]; exact List.getLast_mem hne)
  unfold lineIsSeparator
  simp only [hcore]
  rw [Bool.and_eq_true, List.all_eq_true]
  constructor
  · rintro ⟨h1, h2⟩
    refine ⟨by simpa using h1, fun c hc => ?_⟩
    have := h2 c hc
    simp only [Bool.or_eq_true, beq_iff_eq] at this
    simp only [List.mem_cons, List.mem_singleton]
    tauto
  · rintro ⟨h1, h2⟩
    refine ⟨by simpa using h1, fun c hc => ?_⟩
    have := h2 c hc
    simp only [List.mem_cons, List.mem_singleton] at this
    simp only [Bool.or_eq_true, beq_iff_eq]
    tauto

/-- C6 witness: instantiating the amended characterisation at `"+-"`. -/
theorem C6_witness :
    lineIsSeparator ['+', '-'] = true ↔
      ((['+', '-'] : Line) ≠ [] ∧ ∀ c ∈ (['+', '-'] : Line), c ∈ ['\t', ' ', '+', '=', '-']) :=
  C6_amended ['+', '-'] (by decide)

/-- C8: `split_table_row` always returns at least one field, and behaves as
described on representative lines of both branches: a `|`-delimited line is
split at the bars with whitespace around bars consumed, a bar-free line is
split at runs of two or more whitespace characters (single spaces kept), an
empty line gives one empty field. -/
theorem C8_split_table_row :
    (∀ l : Line, 1 ≤ (splitTableRow l).length)
    ∧ splitTableRow (("| a  | b |").toList) = [("a").toList, ("b").toList]
    ∧ splitTableRow (("a  b c").toList) = [("a").toList, ("b c").toList]
    ∧ splitTableRow (("baz |").toList) = [("baz").toList]
    ∧ splitTableRow ([] : Line) = [[]] := by
  refine ⟨fun l => ?_, by decide, by decide, by decide, by decide⟩
  unfold splitTableRow
  by_cases hb : '|' ∈ l
  · rw [if_pos hb, List.length_map]
    exact List.length_pos.mpr (splitByP_ne_nil _ _)
  · rw [if_neg hb]
    exact List.length_pos.mpr (splitDoubleWS_ne_nil _)

/-- C3 (code bug): on a block consisting of a single separator line the
partition is empty and `unify_table` raises `ValueError` (`max()` of an
empty sequence); on the single line `"|"` every field is blank, the only
column is removed, and `split_row_into_lines` raises the same way.  `none`
is the embedding's image of the raised exception. -/
theorem C3_crash :
    reformatCore [("---").toList] = none ∧ reformatCore [("|").toList] = none := by
  constructor
  · decide
  · decide

/-- C4 (code bug): on an empty selected block `parse_table` calls
`unify_table` on an empty table and `max()` raises `ValueError`; the
pipeline does not return an empty list of lines. -/
theorem C4_empty_crash : reformatCore [] = none := by
  decide

/-! ### Claim C5 -/

theorem getD_map_lt {α β : Type} (g : α → β) (l : List α) (i : Nat) (h : i < l.length)
    (d : α) (d' : β) : (l.map g).getD i d' = g (l.getD i d) := by
  have h2 : i < (l.map g).length := by simpa using h
  rw [List.getD_eq_getElem _ _ h2, List.getD_eq_getElem _ _ h, List.getElem_map]

/-- C5: for every non-empty table, `unify_table` returns one row per input
row in order; every returned row has length equal to the maximum input row
length minus the number of columns blank (after trimming) in every padded
row; each returned row is the restriction of the padded input row to the
surviving column indices in their original relative order. -/
theorem C5_unify_invariant (t : Table) (h : t ≠ []) :
    ∃ u, unifyTable t = some u
      ∧ u.length = t.length
      ∧ (∀ r ∈ u, r.length
            = maxLenR t - ((List.range (maxLenR t)).filter (fun i => emptyColB t i)).length)
      ∧ ∀ i, i < t.length →
          u.getD i [] = (keepIdx t).map (fun j => (padRow (maxLenR t) (t.getD i [])).getD j []) := by
  refine ⟨_, unifyTable_eq t h, ?_, ?_, ?_⟩
  · simp [paddedT]
  · intro r hr
    rcases List.mem_map.mp hr with ⟨r0, _, he⟩
    rw [← he, List.length_map]
    unfold keepIdx
    have hsum := length_filter_add_length_filter_not
      (fun i => emptyColB t i) (List.range (maxLenR t))
    rw [List.length_range] at hsum
    omega
  · intro i hi
    have h1 : (paddedT t).map (fun r => (keepIdx t).map (fun j => r.getD j []))
        = t.map (fun r0 => (keepIdx t).map (fun j => (padRow (maxLenR t) r0).getD j [])) := by
      unfold paddedT
      rw [List.map_map]
      rfl
    rw [h1, getD_map_lt _ t i hi []]

/-- Example table for instantiating the witnesses: two rows, the second
column blank in both. -/
def exT : Table := [[['a'], []], [[], []]]

/-- C5 witness: the invariant instantiated on a concrete two-row table with
an all-blank second column. -/
theorem C5_witness :
    ∃ u, unifyTable exT = some u
      ∧ u.length = exT.length
      ∧ (∀ r ∈ u, r.length
            = maxLenR exT
              - ((List.range (maxLenR exT)).filter (fun i => emptyColB exT i)).length)
      ∧ ∀ i, i < exT.length →
          u.getD i [] = (keepIdx exT).map
            (fun j => (padRow (maxLenR exT) (exT.getD i [])).getD j []) :=
  C5_unify_invariant exT (by decide)

/-! ### Claim C1 -/

theorem optMapM_length {α β : Type} (f : α → Option β) :
    ∀ (l : List α) (ys : List β), optMapM f l = some ys → ys.length = l.length
  | [], ys, h => by
    simp only [optMapM, Option.some.injEq] at h
    subst h
    rfl
  | x :: xs, ys, h => by
    unfold optMapM at h
    cases hfx : f x with
    | none =>
      rw [hfx] at h
      simp at h
    | some y =>
      rw [hfx] at h
      cases hrest : optMapM f xs with
      | none =>
        rw [hrest] at h
        simp at h
      | some ys' =>
        rw [hrest] at h
        have h2 : y :: ys' = ys := by simpa using h
        subst h2
        simp [optMapM_length f xs ys' hrest]

theorem interleaveSeps_cons (hl nl : Line) (b : List Line) (bs : List (List Line)) :
    interleaveSeps hl nl (b :: bs) =
      b ++ [hl] ++ (bs.map (fun bb => bb ++ [nl])).flatten := rfl

theorem drawTable_structure (t : Table) (out : List Line) (hne : t ≠ [])
    (h : drawTable t = some out) :
    ∃ blocks, optMapM (rowBlock (getColumnWidths t)) t = some blocks ∧
      out = tableLine ((getColumnWidths t).map (fun x => x + 2)) true
        :: interleaveSeps (tableLine ((getColumnWidths t).map (fun x => x + 2)) true)
             (tableLine ((getColumnWidths t).map (fun x => x + 2)) false) blocks := by
  simp only [drawTable] at h
  rw [if_neg (by simpa [List.isEmpty_iff] using hne)] at h
  cases hb : optMapM (rowBlock (getColumnWidths t)) t with
  | none =>
    rw [hb] at h
    simp at h
  | some blocks =>
    rw [hb] at h
    have h2 : tableLine ((getColumnWidths t).map (fun x => x + 2)) true
        :: interleaveSeps (tableLine ((getColumnWidths t).map (fun x => x + 2)) true)
             (tableLine ((getColumnWidths t).map (fun x => x + 2)) false) blocks = out := by
      simpa using h
    exact ⟨blocks, rfl, h2.symm⟩

theorem getLast?_flatten_snoc {α : Type} (nl : List α) :
    ∀ bs : List (List (List α)), bs ≠ [] →
      ((bs.map (fun bb => bb ++ [nl])).flatten).getLast? = some nl
  | [], h => absurd rfl h
  | [b], _ => by
    simp only [List.map_cons, List.map_nil, List.flatten_cons, List.flatten_nil,
      List.append_nil]
    rw [List.getLast?_append_of_ne_nil b (by simp)]
    rfl
  | b :: b' :: bs, _ => by
    have ih := getLast?_flatten_snoc nl (b' :: bs) (by simp)
    have hne2 : ((List.map (fun bb => bb ++ [nl]) (b' :: bs)).flatten) ≠ [] := by
      intro hc
      rw [hc] at ih
      simp at ih
    show (((b ++ [nl]) :: (List.map (fun bb => bb ++ [nl]) (b' :: bs))).flatten).getLast?
      = some nl
    rw [List.flatten_cons, List.getLast?_append_of_ne_nil _ hne2, ih]

/-- C1 (amended): for every table of at least two rows that `draw_table`
renders successfully, the output ends with the normal (`-`-filled) separator
line: a closing border IS emitted after the final row's content lines. -/
theorem C1_amended (t : Table) (out : List Line) (h2 : 2 ≤ t.length)
    (h : drawTable t = some out) :
    out.getLast? = some (tableLine ((getColumnWidths t).map (fun x => x + 2)) false) := by
  have hne : t ≠ [] := by
    intro he
    rw [he] at h2
    simp at h2
  obtain ⟨blocks, hb, he⟩ := drawTable_structure t out hne h
  have hlen : blocks.length = t.length := optMapM_length _ t blocks hb
  subst he
  cases blocks with
  | nil => rw [← hlen] at h2; simp at h2
  | cons b0 bs =>
    cases bs with
    | nil =>
      rw [← hlen] at h2
      simp at h2
    | cons b1 bs' =>
      rw [interleaveSeps_cons]
      have hfl := getLast?_flatten_snoc
        (tableLine ((getColumnWidths t).map (fun x => x + 2)) false) (b1 :: bs') (by simp)
      have hne2 : (((b1 :: bs').map
          (fun bb => bb ++ [tableLine ((getColumnWidths t).map (fun x => x + 2)) false])).flatten)
          ≠ [] := by
        intro hc
        rw [hc] at hfl
        simp at hfl
      rw [show (tableLine ((getColumnWidths t).map (fun x => x + 2)) true
            :: (b0 ++ [tableLine ((getColumnWidths t).map (fun x => x + 2)) true]
                ++ ((b1 :: bs').map (fun bb =>
                    bb ++ [tableLine ((getColumnWidths t).map (fun x => x + 2)) false])).flatten))
          = ([tableLine ((getColumnWidths t).map (fun x => x + 2)) true]
              ++ (b0 ++ [tableLine ((getColumnWidths t).map (fun x => x + 2)) true]))
            ++ ((b1 :: bs').map (fun bb =>
                bb ++ [tableLine ((getColumnWidths t).map (fun x => x + 2)) false])).flatten
          from by simp]
      rw [List.getLast?_append_of_ne_nil _ hne2, hfl]

/-- Example table for C1: two single-cell rows. -/
def exT2 : Table := [[['a']], [['b']]]

/-- C1 counterexample: on a two-row table the rendered output ends with the
`-`-filled border line `+---+`, a separator line, not with the final row's
content line `| b |`. -/
theorem C1_counterexample :
    drawTable exT2 = some
      [("+===+").toList, ("| a |").toList, ("+===+").toList, ("| b |").toList, ("+---+").toList]
    ∧ ([("+===+").toList, ("| a |").toList, ("+===+").toList, ("| b |").toList,
        ("+---+").toList].getLast? = some (("+---+").toList))
    ∧ lineIsSeparator (("+---+").toList) = true
    ∧ ("+---+").toList ≠ ("| b |").toList := by
  refine ⟨by decide, by decide, by decide, by decide⟩

/-- C1 witness: the amended claim instantiated at the concrete two-row
table. -/
theorem C1_witness :
    ([("+===+").toList, ("| a |").toList, ("+===+").toList, ("| b |").toList,
      ("+---+").toList] : List Line).getLast?
      = some (tableLine ((getColumnWidths exT2).map (fun x => x + 2)) false) :=
  C1_amended exT2 _ (by decide) (by decide)

/-! ### `split_row_into_lines` / `pad_fields` / `rowBlock` structure -/

theorem getFieldWidth_eq_maxLenR (c : List Char) : getFieldWidth c = maxLenR (splitNL c) := rfl

theorem splitRowIntoLines_eq (r : Row) (hne : r ≠ []) :
    splitRowIntoLines r = some ((List.range (maxLenR (r.map splitNL))).map
      (fun i => (r.map splitNL).map (fun fl => fl.getD i []))) := by
  simp only [splitRowIntoLines]
  rw [listMax_map_length (r.map splitNL) (by simpa using hne)]

theorem splitRowIntoLines_none (r : Row) (h : r = []) : splitRowIntoLines r = none := by
  subst h
  rfl

theorem splitRowIntoLines_mem (r : Row) (rls : List Row) (rl : Row)
    (h : splitRowIntoLines r = some rls) (hrl : rl ∈ rls) :
    rl.length = r.length ∧ ∃ i, rl = (r.map splitNL).map (fun fl => fl.getD i []) := by
  have hne : r ≠ [] := by
    intro he
    rw [splitRowIntoLines_none r he] at h
    simp at h
  rw [splitRowIntoLines_eq r hne] at h
  have h2 : rls = (List.range (maxLenR (r.map splitNL))).map
      (fun i => (r.map splitNL).map (fun fl => fl.getD i [])) := by
    simpa using h.symm
  subst h2
  rcases List.mem_map.mp hrl with ⟨i, _, he⟩
  subst he
  constructor
  · simp
  · exact ⟨i, rfl⟩

theorem padFields_structure (rl : Row) (ws : List Nat) (pr : Row)
    (h : padFields rl ws = some pr) :
    rl.length ≤ ws.length ∧ pr = (rl.zip ws).map (fun p => padOne p.1 p.2) := by
  unfold padFields at h
  by_cases hle : rl.length ≤ ws.length
  · rw [if_pos hle] at h
    exact ⟨hle, by simpa using h.symm⟩
  · rw [if_neg hle] at h
    simp at h

theorem padFields_length (rl : Row) (ws : List Nat) (pr : Row)
    (h : padFields rl ws = some pr) : pr.length = rl.length := by
  obtain ⟨hle, he⟩ := padFields_structure rl ws pr h
  rw [he, List.length_map, List.length_zip]
  omega

theorem rowBlock_structure (ws : List Nat) (r : Row) (b : List Line)
    (h : rowBlock ws r = some b) :
    ∃ rls prls, splitRowIntoLines r = some rls
      ∧ optMapM (fun rl => padFields rl ws) rls = some prls
      ∧ b = prls.map barJoinRow := by
  unfold rowBlock at h
  cases h1 : splitRowIntoLines r with
  | none =>
    rw [h1] at h
    simp at h
  | some rls =>
    rw [h1] at h
    simp only [Option.some_bind] at h
    cases h2 : optMapM (fun rl => padFields rl ws) rls with
    | none =>
      rw [h2] at h
      simp at h
    | some prls =>
      rw [h2] at h
      exact ⟨rls, prls, rfl, h2, by simpa using h.symm⟩

theorem optMapM_mem {α β : Type} (f : α → Option β) :
    ∀ (l : List α) (ys : List β) (y : β),
      optMapM f l = some ys → y ∈ ys → ∃ x ∈ l, f x = some y
  | [], ys, y, h, hy => by
    simp only [optMapM, Option.some.injEq] at h
    subst h
    simp at hy
  | x :: xs, ys, y, h, hy => by
    unfold optMapM at h
    cases hfx : f x with
    | none =>
      rw [hfx] at h
      simp at h
    | some y0 =>
      rw [hfx] at h
      cases hrest : optMapM f xs with
      | none =>
        rw [hrest] at h
        simp at h
      | some ys' =>
        rw [hrest] at h
        have h2 : y0 :: ys' = ys := by simpa using h
        subst h2
        rcases List.mem_cons.mp hy with h3 | h3
        · subst h3
          exact ⟨x, List.mem_cons_self x xs, hfx⟩
        · obtain ⟨x', hx', hf'⟩ := optMapM_mem f xs ys' y hrest h3
          exact ⟨x', List.mem_cons_of_mem x hx', hf'⟩

/-! ### Claim C9 -/

theorem tableLine_eq (widths : List Nat) (b : Bool) (h : widths ≠ []) :
    tableLine widths b
      = joinSep ['+']
          ([[]] ++ widths.map (fun w => List.replicate w (if b then '=' else '-')) ++ [[]]) := by
  cases widths with
  | nil => exact absurd rfl h
  | cons w ws' =>
    simp only [tableLine]
    rw [if_neg (by simp)]

theorem le_getColumnWidths (t : Table) (r : Row) (j : Nat)
    (hr : r ∈ t) (hj : j < r.length) :
    getFieldWidth (r.getD j []) ≤ (getColumnWidths t).getD j 0 := by
  have hjm : j < maxLenR t := Nat.lt_of_lt_of_le hj (len_le_maxLenR t r hr)
  have hlen : j < (getColumnWidths t).length := by
    simp [getColumnWidths, hjm]
  unfold getColumnWidths
  rw [getD_map_lt _ (List.range (maxLenR t)) j (by simpa using hjm) 0]
  have hget : (List.range (maxLenR t)).getD j 0 = j := by
    rw [List.getD_eq_getElem _ _ (by simpa using hjm)]
    simp
  rw [hget]
  apply mem_le_foldl_max
  apply List.mem_filterMap.mpr
  refine ⟨r, hr, ?_⟩
  rw [List.get?_eq_getElem?, List.getElem?_eq_getElem hj, List.getD_eq_getElem _ _ hj]
  rfl

theorem subline_le_width (t : Table) (r : Row) (rl : Row) (j i : Nat)
    (hr : r ∈ t) (hj : j < r.length)
    (he : rl = (r.map splitNL).map (fun fl => fl.getD i [])) :
    (rl.getD j []).length ≤ (getColumnWidths t).getD j 0 := by
  subst he
  rw [getD_map_lt _ (r.map splitNL) j (by simpa using hj) [],
    getD_map_lt _ r j hj []]
  have h1 : ((splitNL (r.getD j [])).getD i []).length ≤ getFieldWidth (r.getD j []) := by
    by_cases hi : i < (splitNL (r.getD j [])).length
    · rw [getFieldWidth_eq_maxLenR]
      apply len_le_maxLenR
      rw [List.getD_eq_getElem _ _ hi]
      exact List.getElem_mem hi
    · rw [List.getD_eq_default _ _ (Nat.le_of_not_lt hi)]
      simp
  exact Nat.le_trans h1 (le_getColumnWidths t r j hr hj)

/-- C9: every padded data cell produced by `pad_fields` inside `draw_table`
is exactly the computed column width plus two characters wide, and every
border line splits at `+` into runs of exactly width-plus-two fill
characters, one per column. -/
theorem C9_width_invariant :
    (∀ (t : Table) (r : Row) (rls : List Row) (rl : Row) (pr : Row),
        r ∈ t → splitRowIntoLines r = some rls → rl ∈ rls →
        padFields rl (getColumnWidths t) = some pr →
        pr.length = rl.length ∧
          ∀ j, j < pr.length →
            (pr.getD j []).length = (getColumnWidths t).getD j 0 + 2)
    ∧ ∀ (ws : List Nat) (b : Bool), ws ≠ [] →
        splitByP (fun c => c == '+') (tableLine (ws.map (fun x => x + 2)) b)
          = [[]] ++ ws.map (fun w => List.replicate (w + 2) (if b then '=' else '-')) ++ [[]] := by
  constructor
  · intro t r rls rl pr hr hsplit hrl hpad
    obtain ⟨hlenr, i, he⟩ := splitRowIntoLines_mem r rls rl hsplit hrl
    obtain ⟨hle, hpr⟩ := padFields_structure rl _ pr hpad
    have hprlen : pr.length = rl.length := padFields_length rl _ pr hpad
    refine ⟨hprlen, fun j hj => ?_⟩
    have hjrl : j < rl.length := by omega
    have hjr : j < r.length := by omega
    have hjz : j < (rl.zip (getColumnWidths t)).length := by
      rw [List.length_zip]
      omega
    rw [hpr, getD_map_lt _ _ j hjz ([], 0)]
    have hzip : (rl.zip (getColumnWidths t)).getD j ([], 0)
        = (rl.getD j [], (getColumnWidths t).getD j 0) := by
      rw [List.getD_eq_getElem _ _ hjz, List.getElem_zip,
        List.getD_eq_getElem _ _ hjrl, List.getD_eq_getElem _ _ (by omega : j < (getColumnWidths t).length)]
    rw [hzip]
    have hwle : (trim (rl.getD j [])).length ≤ (getColumnWidths t).getD j 0 :=
      Nat.le_trans (trim_length_le _) (subline_le_width t r rl j i hr hjr he)
    simp only [padOne, List.length_append, List.length_replicate, List.length_cons,
      List.length_nil]
    omega
  · intro ws b hws
    rw [tableLine_eq _ b (by simp [hws])]
    rw [splitByP_joinSep (fun c => c == '+') '+' rfl _ (by simp) ?hnb]
    · rw [List.map_map]
      rfl
    case hnb =>
      intro q hq x hx
      rcases List.mem_append.mp hq with hq1 | hq1
      · rcases List.mem_append.mp hq1 with hq2 | hq2
        · simp at hq2
          subst hq2
          simp at hx
        · rcases List.mem_map.mp hq2 with ⟨w, _, he⟩
          subst he
          have := List.eq_of_mem_replicate hx
          subst this
          cases b with
          | true => rfl
          | false => rfl
      · simp at hq1
        subst hq1
        simp at hx

/-- C9 witness: the data-cell width part instantiated on the concrete table
`exT2` (column width 1, padded cell `" a "` of width 3). -/
theorem C9_witness :
    ([[' ', 'a', ' ']] : Row).length = ([['a']] : Row).length
    ∧ ∀ j, j < ([[' ', 'a', ' ']] : Row).length →
        (([[' ', 'a', ' ']] : Row).getD j []).length = (getColumnWidths exT2).getD j 0 + 2 :=
  (C9_width_invariant).1 exT2 [['a']] [[['a']]] [['a']] [[' ', 'a', ' ']]
    (by decide) (by decide) (by decide) (by decide)

/-! ### Claim C10 -/

theorem tableLine_head (widths : List Nat) (b : Bool) (h : widths ≠ []) :
    ∃ rest, tableLine widths b = '+' :: rest := by
  rw [tableLine_eq widths b h,
    show ([[]] ++ widths.map (fun w => List.replicate w (if b then '=' else '-')) ++ [[]]
          : List (List Char))
      = [] :: (widths.map (fun w => List.replicate w (if b then '=' else '-')) ++ [[]]) from rfl,
    joinSep_cons_of_ne ['+'] [] _ (by simp)]
  exact ⟨_, rfl⟩

theorem interleaveSeps_mem (hl nl : Line) (bs : List (List Line)) (l : Line)
    (h : l ∈ interleaveSeps hl nl bs) :
    (∃ b ∈ bs, l ∈ b) ∨ l = hl ∨ l = nl := by
  cases bs with
  | nil => simp [interleaveSeps] at h
  | cons b bs' =>
    rw [interleaveSeps_cons] at h
    rcases List.mem_append.mp h with h1 | h1
    · rcases List.mem_append.mp h1 with h2 | h2
      · exact Or.inl ⟨b, List.mem_cons_self b bs', h2⟩
      · simp only [List.mem_singleton] at h2
        exact Or.inr (Or.inl h2)
    · rcases List.mem_flatten.mp h1 with ⟨bb', hbb', hlb⟩
      rcases List.mem_map.mp hbb' with ⟨bb, hbb, he⟩
      subst he
      rcases List.mem_append.mp hlb with h2 | h2
      · exact Or.inl ⟨bb, List.mem_cons_of_mem b hbb, h2⟩
      · simp only [List.mem_singleton] at h2
        exact Or.inr (Or.inr h2)

/-- C10: for every non-empty table whose rows all have the same positive
number of cells, every line that `draw_table` outputs is non-empty, contains
a `+` (border lines) or a `|` (data lines), and hence contains a
non-whitespace character — the rewritten region is a contiguous non-blank
block, so a subsequent blank-line-delimited bounds scan selects the same
region. -/
theorem C10_nonblank_output (t : Table) (n : Nat) (out : List Line)
    (hne : t ≠ []) (hn : 0 < n) (hrows : ∀ r ∈ t, r.length = n)
    (h : drawTable t = some out) :
    ∀ l ∈ out, l ≠ [] ∧ ('+' ∈ l ∨ '|' ∈ l) ∧ ∃ c ∈ l, isWS c = false := by
  obtain ⟨blocks, hb, he⟩ := drawTable_structure t out hne h
  subst he
  have hm : maxLenR t = n := maxLenR_all_eq t n hne hrows
  have hwsne : (getColumnWidths t).map (fun x => x + 2) ≠ [] := by
    intro hc
    have hlen : ((getColumnWidths t).map (fun x => x + 2)).length = n := by
      simp [getColumnWidths, hm]
    rw [hc] at hlen
    simp at hlen
    omega
  have hsepline : ∀ b : Bool,
      (tableLine ((getColumnWidths t).map (fun x => x + 2)) b ≠ [])
      ∧ '+' ∈ tableLine ((getColumnWidths t).map (fun x => x + 2)) b := by
    intro b
    obtain ⟨rest, hrest⟩ := tableLine_head _ b hwsne
    rw [hrest]
    exact ⟨by simp, List.mem_cons_self _ _⟩
  intro l hl
  have hmain : l = tableLine ((getColumnWidths t).map (fun x => x + 2)) true
      ∨ l = tableLine ((getColumnWidths t).map (fun x => x + 2)) false
      ∨ ∃ rest, l = '|' :: rest := by
    rcases List.mem_cons.mp hl with h1 | h1
    · exact Or.inl h1
    · rcases interleaveSeps_mem _ _ blocks l h1 with ⟨b, hbm, hlb⟩ | h2 | h2
      · obtain ⟨r, hrm, hrb⟩ := optMapM_mem _ t blocks b hb hbm
        obtain ⟨rls, prls, hsplit, hpads, hbe⟩ := rowBlock_structure _ r b hrb
        subst hbe
        rcases List.mem_map.mp hlb with ⟨pr, hprm, hle⟩
        subst hle
        obtain ⟨rl, hrlm, hpad⟩ := optMapM_mem _ rls prls pr hpads hprm
        have hprlen : pr.length = rl.length := padFields_length rl _ pr hpad
        have hrllen : rl.length = r.length := (splitRowIntoLines_mem r rls rl hsplit hrlm).1
        have hprne : pr ≠ [] := by
          intro hc
          rw [hc] at hprlen
          have := hrows r hrm
          simp at hprlen
          omega
        rw [barJoinRow_eq pr hprne]
        exact Or.inr (Or.inr ⟨_, rfl⟩)
      · exact Or.inl h2
      · exact Or.inr (Or.inl h2)
  rcases hmain with h2 | h2 | h2
  · subst h2
    obtain ⟨hne1, hplus⟩ := hsepline true
    exact ⟨hne1, Or.inl hplus, '+', hplus, rfl⟩
  · subst h2
    obtain ⟨hne1, hplus⟩ := hsepline false
    exact ⟨hne1, Or.inl hplus, '+', hplus, rfl⟩
  · obtain ⟨rest, he⟩ := h2
    subst he
    exact ⟨by simp, Or.inr (List.mem_cons_self _ _), '|', List.mem_cons_self _ _, rfl⟩

/-- C10 witness: instantiated on the two-row table `exT2`, its rendered
output, and the data line `"| a |"` of that output. -/
theorem C10_witness :
    ("| a |").toList ≠ []
    ∧ ('+' ∈ ("| a |").toList ∨ '|' ∈ ("| a |").toList)
    ∧ ∃ c ∈ ("| a |").toList, isWS c = false :=
  C10_nonblank_output exT2 1
    [("+===+").toList, ("| a |").toList, ("+===+").toList, ("| b |").toList, ("+---+").toList]
    (by decide) (by decide) (by decide) (by decide) (("| a |").toList) (by decide)

/-! ### Claim C7: `join_rows` characterisation -/

/-- The spec's description of one joined cell: the (not yet joined) list of
non-empty trimmed field strings found at index `i` across the rows, in
order. -/
def collectL (rows : List Row) (i : Nat) : List (List Char) :=
  rows.filterMap (fun r =>
    (r.get? i).bind (fun f => if (trim f).isEmpty then none else some (trim f)))

theorem range_getD (n i : Nat) (h : i < n) : (List.range n).getD i 0 = i := by
  rw [List.getD_eq_getElem _ _ (by simpa using h)]
  simp

theorem collectL_cons (r : Row) (rs : List Row) (i : Nat) :
    collectL (r :: rs) i = optEntry r i ++ collectL rs i := by
  unfold collectL optEntry
  rw [List.filterMap_cons]
  cases hg : r.get? i with
  | none => simp
  | some f =>
    by_cases ht : (trim f).isEmpty = true
    · have ht' : trim f = [] := by simpa [List.isEmpty_iff] using ht
      simp [ht, ht']
    · have ht' : ¬ trim f = [] := by simpa [List.isEmpty_iff] using ht
      simp [ht, ht']

theorem foldl_max_init (l : List Nat) : ∀ a, l.foldl max a = max a (l.foldl max 0) := by
  induction l with
  | nil => intro a; simp
  | cons x xs ih =>
    intro a
    rw [List.foldl_cons, List.foldl_cons, ih (max a x), ih (max 0 x)]
    omega

theorem maxLenR_cons {α : Type} (r : List α) (rs : List (List α)) :
    maxLenR (r :: rs) = max r.length (maxLenR rs) := by
  unfold maxLenR
  rw [List.foldl_cons, foldl_maxLen_eq, foldl_maxLen_eq, foldl_max_init]
  omega

theorem joinRowsAux_length (out : List (List (List Char))) (row : Row) :
    (joinRowsAux out row).length = max out.length row.length := by
  simp [joinRowsAux]

theorem optEntry_out_of_range (row : Row) (i : Nat) (h : row.length ≤ i) :
    optEntry row i = [] := by
  unfold optEntry
  rw [List.get?_eq_getElem?, List.getElem?_eq_none h]

theorem joinRowsAux_getD (out : List (List (List Char))) (row : Row) (i : Nat) :
    (joinRowsAux out row).getD i [] = out.getD i [] ++ optEntry row i := by
  by_cases hi : i < max out.length row.length
  · unfold joinRowsAux
    rw [getD_map_lt _ (List.range (max out.length row.length)) i (by simpa using hi) 0,
      range_getD _ i hi]
  · have ho : out.getD i [] = [] := List.getD_eq_default _ _ (by omega)
    have he : optEntry row i = [] := optEntry_out_of_range row i (by omega)
    have hj : (joinRowsAux out row).getD i [] = [] := by
      apply List.getD_eq_default
      rw [joinRowsAux_length]
      omega
    rw [ho, he, hj]
    rfl

theorem joinRows_fold (rows : List Row) :
    ∀ acc : List (List (List Char)),
      rows.foldl joinRowsAux acc
        = (List.range (max acc.length (maxLenR rows))).map
            (fun i => acc.getD i [] ++ collectL rows i) := by
  induction rows with
  | nil =>
    intro acc
    have h1 : (fun i => acc.getD i [] ++ collectL [] i) = fun i => acc.getD i [] := by
      funext i
      simp [collectL]
    rw [List.foldl_nil]
    rw [show maxLenR ([] : List Row) = 0 from rfl, Nat.max_zero, h1, map_getD_range]
  | cons r rs ih =>
    intro acc
    rw [List.foldl_cons, ih (joinRowsAux acc r), joinRowsAux_length, maxLenR_cons]
    have hmax : max (max acc.length r.length) (maxLenR rs)
        = max acc.length (max r.length (maxLenR rs)) := Nat.max_assoc _ _ _
    rw [hmax]
    have h1 : (fun i => (joinRowsAux acc r).getD i [] ++ collectL rs i)
        = fun i => acc.getD i [] ++ collectL (r :: rs) i := by
      funext i
      rw [joinRowsAux_getD, collectL_cons, List.append_assoc]
    rw [h1]

theorem joinRows_spec (rows : List Row) :
    joinRows rows = (List.range (maxLenR rows)).map
      (fun i => joinSep ['\n'] (collectL rows i)) := by
  unfold joinRows
  rw [joinRows_fold rows [], List.map_map]
  have h1 : (max ([] : List (List (List Char))).length (maxLenR rows)) = maxLenR rows := by
    simp
  rw [h1]
  have h2 : (joinSep ['\n'] ∘ fun i => ([] : List (List (List Char))).getD i [] ++ collectL rows i)
      = fun i => joinSep ['\n'] (collectL rows i) := by
    funext i
    simp [Function.comp]
  rw [h2]

/-- C7: `join_rows` produces, at each column index `i` below the maximal row
length, the newline-join of the non-empty trimmed fields at index `i` across
the rows in order (rows with a blank or missing field at `i` contribute
nothing); and on the spec's Example 2 input the parsed table is
`[["foo\nbaz", "bar"], ["x", "y"]]`. -/
theorem C7_join_rows :
    (∀ rows : List Row,
        (joinRows rows).length = maxLenR rows
        ∧ ∀ i, i < maxLenR rows →
            (joinRows rows).getD i [] = joinSep ['\n'] (collectL rows i))
    ∧ parseTable [("foo | bar").toList, ("baz |").toList, ("----+----").toList,
        ("x   | y").toList]
      = some [[("foo").toList ++ '\n' :: ("baz").toList, ("bar").toList],
              [("x").toList, ("y").toList]] := by
  constructor
  · intro rows
    rw [joinRows_spec]
    constructor
    · simp
    · intro i hi
      rw [getD_map_lt _ (List.range (maxLenR rows)) i (by simpa using hi) 0, range_getD _ i hi]
  · decide

/-- C7 witness: the column-0 cell of a two-line partition with a blank
second-line field. -/
theorem C7_witness :
    (joinRows [[("foo").toList, ("bar").toList], [("baz").toList]]).getD 0 []
      = joinSep ['\n'] (collectL [[("foo").toList, ("bar").toList], [("baz").toList]] 0) :=
  ((C7_join_rows).1 [[("foo").toList, ("bar").toList], [("baz").toList]]).2 0 (by decide)

/-! ### Claim C2: idempotence of the reformat pipeline.

The invariant `InvTable` captures the shape of every table that
`parse_table` produces and `draw_table` accepts: non-empty, rectangular with
a positive column count, every cell either empty or a newline-join of
non-empty trimmed bar-free fields, and no all-blank column. -/

/-- Shape of a cell produced by `join_rows` from newline-free raw lines. -/
def InvCell (c : List Char) : Prop :=
  c = [] ∨ ∃ ps : List (List Char), ps ≠ []
    ∧ (∀ p ∈ ps, p ≠ [] ∧ trim p = p ∧ '\n' ∉ p ∧ '|' ∉ p)
    ∧ c = joinSep ['\n'] ps

/-- Shape of a table produced by `parse_table` (from newline-free lines)
that `draw_table` renders successfully. -/
def InvTable (T : Table) : Prop :=
  T ≠ [] ∧ ∃ n, 0 < n
    ∧ (∀ r ∈ T, r.length = n ∧ ∀ c ∈ r, InvCell c)
    ∧ ∀ j, j < n → ∃ r ∈ T, ¬ (trim (r.getD j [])).isEmpty = true

theorem optMapM_eq_map {α β : Type} (f : α → Option β) (g : α → β) :
    ∀ l : List α, (∀ x ∈ l, f x = some (g x)) → optMapM f l = some (l.map g)
  | [], _ => rfl
  | x :: xs, h => by
    unfold optMapM
    rw [h x (List.mem_cons_self x xs),
      optMapM_eq_map f g xs (fun y hy => h y (List.mem_cons_of_mem x hy))]
    rfl

theorem optMapM_forall {α β : Type} (f : α → Option β) :
    ∀ (l : List α) (ys : List β), optMapM f l = some ys → ∀ x ∈ l, ∃ y, f x = some y
  | [], ys, _, x, hx => by simp at hx
  | z :: zs, ys, h, x, hx => by
    unfold optMapM at h
    cases hfz : f z with
    | none =>
      rw [hfz] at h
      simp at h
    | some y0 =>
      rw [hfz] at h
      cases hrest : optMapM f zs with
      | none =>
        rw [hrest] at h
        simp at h
      | some ys' =>
        rcases List.mem_cons.mp hx with h1 | h1
        · subst h1
          exact ⟨y0, hfz⟩
        · exact optMapM_forall f zs ys' hrest x h1

theorem mem_joinSep {α : Type} (sep : List α) :
    ∀ (ps : List (List α)) (x : α), x ∈ joinSep sep ps → x ∈ sep ∨ ∃ p ∈ ps, x ∈ p
  | [], x, h => by simp [joinSep] at h
  | [p], x, h => Or.inr ⟨p, List.mem_cons_self p [], h⟩
  | p :: q :: rest, x, h => by
    rw [show joinSep sep (p :: q :: rest) = p ++ sep ++ joinSep sep (q :: rest) from rfl] at h
    rcases List.mem_append.mp h with h1 | h1
    · rcases List.mem_append.mp h1 with h2 | h2
      · exact Or.inr ⟨p, List.mem_cons_self p _, h2⟩
      · exact Or.inl h2
    · rcases mem_joinSep sep (q :: rest) x h1 with h2 | ⟨p', hp', hx'⟩
      · exact Or.inl h2
      · exact Or.inr ⟨p', List.mem_cons_of_mem p hp', hx'⟩

theorem padOne_trim (c : List Char) (w : Nat) : trim (padOne c w) = trim c := by
  unfold padOne
  rw [show ([' '] ++ trim c ++ List.replicate (w - (trim c).length) ' ' ++ [' '])
      = [' '] ++ (trim c ++ (List.replicate (w - (trim c).length) ' ' ++ [' '])) by
    simp [List.append_assoc]]
  rw [trim_append_ws_left [' '] _ (by intro x hx; simp at hx; rw [hx]; rfl)]
  rw [trim_append_ws_right _ _ (by
    intro x hx
    rcases List.mem_append.mp hx with h1 | h1
    · rw [List.eq_of_mem_replicate h1]
      rfl
    · simp at h1
      rw [h1]
      rfl)]
  exact trim_trim c

theorem mem_padOne (c : List Char) (w : Nat) (x : Char) (h : x ∈ padOne c w) :
    x = ' ' ∨ x ∈ trim c := by
  unfold padOne at h
  rcases List.mem_append.mp h with h1 | h1
  · rcases List.mem_append.mp h1 with h2 | h2
    · rcases List.mem_append.mp h2 with h3 | h3
      · simp at h3
        exact Or.inl h3
      · exact Or.inr h3
    · exact Or.inl (List.eq_of_mem_replicate h2)
  · simp at h1
    exact Or.inl h1

theorem zip_map_fst {α β γ : Type} (f : α → γ) :
    ∀ (l : List α) (ws : List β), l.length ≤ ws.length →
      (l.zip ws).map (fun p => f p.1) = l.map f
  | [], _, _ => rfl
  | x :: xs, [], h => by simp at h
  | x :: xs, w :: ws, h => by
    simp only [List.zip_cons_cons, List.map_cons]
    rw [zip_map_fst f xs ws (by simpa using h)]

theorem filterMap_some_eq_map {α β : Type} (f : α → β) :
    ∀ l : List α, l.filterMap (fun x => some (f x)) = l.map f
  | [] => rfl
  | x :: xs => by
    rw [List.filterMap_cons, List.map_cons, filterMap_some_eq_map f xs]

theorem filterMap_range_window {β : Type} (g : Nat → β) :
    ∀ (H m : Nat), m ≤ H →
      (List.range H).filterMap (fun k => if k < m then some (g k) else none)
        = (List.range m).map g := by
  intro H
  induction H with
  | zero =>
    intro m hm
    have : m = 0 := by omega
    subst this
    rfl
  | succ H ih =>
    intro m hm
    rw [List.range_succ, List.filterMap_append]
    by_cases hmH : m ≤ H
    · rw [ih m hmH]
      have : ((([H] : List Nat)).filterMap (fun k => if k < m then some (g k) else none)) = [] := by
        simp only [List.filterMap_cons, List.filterMap_nil]
        rw [if_neg (by omega)]
      rw [this, List.append_nil]
    · have hmeq : m = H + 1 := by omega
      subst hmeq
      have h1 : (List.range H).filterMap (fun k => if k < H + 1 then some (g k) else none)
          = (List.range H).map g := by
        have hcong : ∀ k ∈ List.range H,
            (if k < H + 1 then some (g k) else none) = some (g k) := by
          intro k hk
          rw [if_pos]
          have := List.mem_range.mp hk
          omega
        calc (List.range H).filterMap (fun k => if k < H + 1 then some (g k) else none)
            = (List.range H).filterMap (fun k => some (g k)) := List.filterMap_congr hcong
          _ = (List.range H).map g := filterMap_some_eq_map g _
      have h2 : ((([H] : List Nat)).filterMap (fun k => if k < H + 1 then some (g k) else none))
          = [g H] := by
        simp only [List.filterMap_cons, List.filterMap_nil]
        rw [if_pos (by omega)]
      rw [h1, h2, show List.range (H + 1) = List.range H ++ [H] from List.range_succ H,
        List.map_append]
      rfl

theorem invCell_splitNL (c : List Char) (hc : InvCell c) :
    (c = [] ∧ splitNL c = [[]])
    ∨ (∃ ps, splitNL c = ps ∧ c = joinSep ['\n'] ps ∧ ps ≠ []
        ∧ ∀ p ∈ ps, p ≠ [] ∧ trim p = p ∧ '\n' ∉ p ∧ '|' ∉ p) := by
  rcases hc with hc | ⟨ps, hne, hp, he⟩
  · subst hc
    exact Or.inl ⟨rfl, rfl⟩
  · subst he
    refine Or.inr ⟨ps, ?_, rfl, hne, hp⟩
    unfold splitNL
    apply splitByP_joinSep _ '\n' rfl ps hne
    intro q hq x hx
    have := (hp q hq).2.2.1
    exact beq_eq_false_iff_ne.mpr (fun hxe => this (hxe ▸ hx))

/-! ### Explicit form of the blocks drawn by `draw_table` -/

/-- The turn table (visual lines) of one row, as computed by
`split_row_into_lines` on a non-empty row. -/
def rowLinesOf (r : Row) : List Row :=
  (List.range (maxLenR (r.map splitNL))).map
    (fun i => (r.map splitNL).map (fun fl => fl.getD i []))

/-- `pad_fields` on a row that is short enough for the widths list. -/
def padRowLine (ws : List Nat) (rl : Row) : Row :=
  (rl.zip ws).map (fun p => padOne p.1 p.2)

/-- The output lines of one row in `draw_table`. -/
def blockOf (ws : List Nat) (r : Row) : List Line :=
  (rowLinesOf r).map (fun rl => barJoinRow (padRowLine ws rl))

theorem rowLinesOf_row (r : Row) (rl : Row) (h : rl ∈ rowLinesOf r) :
    rl.length = r.length ∧ ∃ i, rl = (r.map splitNL).map (fun fl => fl.getD i []) := by
  rcases List.mem_map.mp h with ⟨i, _, he⟩
  subst he
  exact ⟨by simp, i, rfl⟩

theorem rowBlock_eq (ws : List Nat) (r : Row) (hne : r ≠ []) (hlen : r.length ≤ ws.length) :
    rowBlock ws r = some (blockOf ws r) := by
  unfold rowBlock
  rw [splitRowIntoLines_eq r hne]
  simp only [Option.some_bind]
  rw [optMapM_eq_map (fun rl => padFields rl ws) (padRowLine ws) _ ?hall]
  · simp [blockOf, rowLinesOf, List.map_map]
  case hall =>
    intro rl hrl
    have hl : rl.length = r.length := (rowLinesOf_row r rl hrl).1
    simp only [padFields]
    rw [if_pos (by omega)]
    rfl

theorem draw_eq (T : Table) (n : Nat) (hne : T ≠ []) (hn : 0 < n)
    (hrows : ∀ r ∈ T, r.length = n) :
    drawTable T = some
      (tableLine ((getColumnWidths T).map (fun x => x + 2)) true
        :: interleaveSeps (tableLine ((getColumnWidths T).map (fun x => x + 2)) true)
             (tableLine ((getColumnWidths T).map (fun x => x + 2)) false)
             (T.map (blockOf (getColumnWidths T)))) := by
  have hwslen : (getColumnWidths T).length = n := by
    simp [getColumnWidths, maxLenR_all_eq T n hne hrows]
  simp only [drawTable]
  rw [if_neg (by simpa [List.isEmpty_iff] using hne)]
  rw [optMapM_eq_map (rowBlock (getColumnWidths T)) (blockOf (getColumnWidths T)) T ?hall]
  · rfl
  case hall =>
    intro r hr
    apply rowBlock_eq
    · intro hc
      have := hrows r hr
      rw [hc] at this
      simp at this
      omega
    · rw [hrows r hr, hwslen]

/-! ### Recovering the table from its rendered block lines -/

theorem invCell_entry (c : List Char) (hc : InvCell c) (i : Nat) :
    trim ((splitNL c).getD i []) = (splitNL c).getD i []
    ∧ '|' ∉ (splitNL c).getD i []
    ∧ '\n' ∉ (splitNL c).getD i [] := by
  rcases invCell_splitNL c hc with ⟨_, hs⟩ | ⟨ps, hs, _, _, hp⟩
  · rw [hs]
    cases i with
    | zero => exact ⟨rfl, by simp, by simp⟩
    | succ k =>
      rw [List.getD_cons_succ]
      have : ([] : List (List Char)).getD k [] = [] := by simp
      rw [this]
      exact ⟨rfl, by simp, by simp⟩
  · rw [hs]
    by_cases hi : i < ps.length
    · have hm : ps.getD i [] ∈ ps := by
        rw [List.getD_eq_getElem _ _ hi]
        exact List.getElem_mem hi
      obtain ⟨_, h2, h3, h4⟩ := hp _ hm
      exact ⟨h2, h4, h3⟩
    · rw [List.getD_eq_default _ _ (by omega)]
      exact ⟨rfl, by simp, by simp⟩

theorem splitTableRow_padded (ws : List Nat) (rl : Row)
    (hlen : rl.length ≤ ws.length) (hrlne : rl ≠ [])
    (hbar : ∀ e ∈ rl, '|' ∉ e) (htr : ∀ e ∈ rl, trim e = e) :
    splitTableRow (barJoinRow (padRowLine ws rl)) = rl := by
  have hprlen : (padRowLine ws rl).length = rl.length := by
    unfold padRowLine
    rw [List.length_map, List.length_zip]
    omega
  have hprne : padRowLine ws rl ≠ [] := by
    intro hc
    rw [hc] at hprlen
    simp at hprlen
    exact hrlne (List.length_eq_zero.mp hprlen.symm)
  rw [splitTableRow_barJoin (padRowLine ws rl) hprne ?hpbar]
  · unfold padRowLine
    rw [List.map_map]
    have h1 : (rl.zip ws).map (trim ∘ fun p => padOne p.1 p.2)
        = (rl.zip ws).map (fun p => trim p.1) := by
      apply List.map_congr_left
      intro p _
      exact padOne_trim p.1 p.2
    rw [h1, zip_map_fst trim rl ws hlen]
    calc rl.map trim = rl.map id := List.map_congr_left (fun e he => htr e he)
    _ = rl := List.map_id rl
  case hpbar =>
    intro q hq x hx
    rcases List.mem_map.mp hq with ⟨p, hp, he⟩
    subst he
    rcases mem_padOne p.1 p.2 x hx with h1 | h1
    · subst h1
      rfl
    · have hp1 : p.1 ∈ rl := (List.of_mem_zip hp).1
      have := hbar p.1 hp1
      have hxp : x ∈ p.1 := mem_trim _ _ h1
      exact beq_eq_false_iff_ne.mpr (fun hxe => this (hxe ▸ hxp))

theorem block_split (ws : List Nat) (r : Row) (n : Nat)
    (hrlen : r.length = n) (hn : 0 < n) (hws : n ≤ ws.length)
    (hc : ∀ c ∈ r, InvCell c) :
    (blockOf ws r).map splitTableRow = rowLinesOf r := by
  unfold blockOf
  rw [List.map_map]
  have h1 : ∀ rl ∈ rowLinesOf r,
      (splitTableRow ∘ fun rl => barJoinRow (padRowLine ws rl)) rl = rl := by
    intro rl hrl
    obtain ⟨hlen, i, he⟩ := rowLinesOf_row r rl hrl
    have hents : ∀ e ∈ rl, trim e = e ∧ '|' ∉ e := by
      intro e hee
      rw [he] at hee
      rcases List.mem_map.mp hee with ⟨fl, hfl, hfe⟩
      rcases List.mem_map.mp hfl with ⟨c, hcr, hce⟩
      subst hce
      subst hfe
      obtain ⟨ht, hb, _⟩ := invCell_entry c (hc c hcr) i
      exact ⟨ht, hb⟩
    apply splitTableRow_padded
    · omega
    · intro hce
      rw [hce] at hlen
      simp at hlen
      omega
    · exact fun e hee => (hents e hee).2
    · exact fun e hee => (hents e hee).1
  calc (rowLinesOf r).map (splitTableRow ∘ fun rl => barJoinRow (padRowLine ws rl))
      = (rowLinesOf r).map id := List.map_congr_left h1
  _ = rowLinesOf r := List.map_id _

theorem filterMap_none_eq_nil {α β : Type} :
    ∀ l : List α, l.filterMap (fun _ => (none : Option β)) = []
  | [] => rfl
  | x :: xs => by
    rw [List.filterMap_cons]
    exact filterMap_none_eq_nil xs

theorem joinRows_rowLinesOf (r : Row) (hne : r ≠ [])
    (hc : ∀ c ∈ r, InvCell c) : joinRows (rowLinesOf r) = r := by
  have hH1 : 1 ≤ maxLenR (r.map splitNL) := by
    cases r with
    | nil => exact absurd rfl hne
    | cons c r' =>
      have h1 : (splitNL c).length ≤ maxLenR ((c :: r').map splitNL) := by
        apply len_le_maxLenR
        exact List.mem_map_of_mem splitNL (List.mem_cons_self c r')
      have h2 : 0 < (splitNL c).length := List.length_pos.mpr (splitByP_ne_nil _ _)
      omega
  have hrows : ∀ rl ∈ rowLinesOf r, rl.length = r.length :=
    fun rl hrl => (rowLinesOf_row r rl hrl).1
  have hrlne : rowLinesOf r ≠ [] := by
    unfold rowLinesOf
    intro hcn
    rw [List.map_eq_nil_iff, List.range_eq_nil] at hcn
    omega
  have hmax : maxLenR (rowLinesOf r) = r.length := maxLenR_all_eq _ _ hrlne hrows
  rw [joinRows_spec, hmax]
  have hcol : ∀ j ∈ List.range r.length,
      joinSep ['\n'] (collectL (rowLinesOf r) j) = r.getD j [] := by
    intro j hj
    have hjr : j < r.length := List.mem_range.mp hj
    set c := r.getD j [] with hcdef
    have hcr : c ∈ r := by
      rw [hcdef, List.getD_eq_getElem _ _ hjr]
      exact List.getElem_mem hjr
    have hget : ∀ i : Nat,
        ((r.map splitNL).map (fun fl => fl.getD i [])).get? j
          = some ((splitNL c).getD i []) := by
      intro i
      rw [List.get?_eq_getElem?, List.getElem?_map, List.getElem?_map,
        List.getElem?_eq_getElem hjr, hcdef, List.getD_eq_getElem _ _ hjr]
      rfl
    have hcoll : collectL (rowLinesOf r) j
        = (List.range (maxLenR (r.map splitNL))).filterMap
            (fun i => (some ((splitNL c).getD i [])).bind
              (fun f => if (trim f).isEmpty then none else some (trim f))) := by
      unfold collectL rowLinesOf
      rw [List.filterMap_map]
      apply List.filterMap_congr
      intro i _
      simp only [Function.comp]
      rw [hget i]
    rcases invCell_splitNL c (hc c hcr) with ⟨hce, hs⟩ | ⟨ps, hs, hcj, hpne, hp⟩
    · rw [hcoll]
      have hz : ∀ i ∈ List.range (maxLenR (r.map splitNL)),
          ((some ((splitNL c).getD i [])).bind
            (fun f => if (trim f).isEmpty then none else some (trim f)))
            = (none : Option (List Char)) := by
        intro i _
        rw [hs]
        have he : ([[]] : List (List Char)).getD i [] = [] := by
          cases i with
          | zero => rfl
          | succ k => simp
        rw [Option.some_bind, he]
        rfl
      rw [List.filterMap_congr hz, filterMap_none_eq_nil, hce]
      rfl
    · rw [hcoll]
      have hlenps : ps.length ≤ maxLenR (r.map splitNL) := by
        rw [← hs]
        apply len_le_maxLenR
        exact List.mem_map_of_mem splitNL hcr
      have hz : ∀ i ∈ List.range (maxLenR (r.map splitNL)),
          ((some ((splitNL c).getD i [])).bind
            (fun f => if (trim f).isEmpty then none else some (trim f)))
            = if i < ps.length then some (ps.getD i []) else none := by
        intro i _
        rw [hs, Option.some_bind]
        by_cases hi : i < ps.length
        · have hm : ps.getD i [] ∈ ps := by
            rw [List.getD_eq_getElem _ _ hi]
            exact List.getElem_mem hi
          obtain ⟨hpn, hpt, _, _⟩ := hp _ hm
          rw [if_pos hi, if_neg (by rw [hpt]; simpa [List.isEmpty_iff] using hpn), hpt]
        · rw [List.getD_eq_default _ _ (by omega), if_neg hi]
          rfl
      rw [List.filterMap_congr hz, filterMap_range_window _ _ _ hlenps, map_getD_range, ← hcj]
  calc (List.range r.length).map (fun j => joinSep ['\n'] (collectL (rowLinesOf r) j))
      = (List.range r.length).map (fun j => r.getD j []) := List.map_congr_left hcol
  _ = r := map_getD_range r []

/-! ### Classification of rendered lines and the partition round trip -/

theorem sep_core_eq (l : Line) (h : '\n' ∉ l) :
    (if l.getLast? = some '\n' then l.dropLast else l) = l := by
  rw [if_neg]
  intro hcl
  obtain ⟨hne2, heq⟩ := List.mem_getLast?_eq_getLast (show '\n' ∈ l.getLast? from hcl)
  exact h (by rw [heq]; exact List.getLast_mem hne2)

theorem lineIsSeparator_false_of (l : Line) (h1 : '|' ∈ l) (h2 : '\n' ∉ l) :
    lineIsSeparator l = false := by
  unfold lineIsSeparator
  simp only [sep_core_eq l h2]
  have hall : l.all (fun c => c == '\t' || c == ' ' || c == '+' || c == '=' || c == '-')
      = false := by
    cases hok : l.all (fun c => c == '\t' || c == ' ' || c == '+' || c == '=' || c == '-')
    · rfl
    · have := List.all_eq_true.mp hok '|' h1
      simp at this
  rw [hall]
  simp

theorem tableLine_is_sep (widths : List Nat) (b : Bool) (h : widths ≠ []) :
    lineIsSeparator (tableLine widths b) = true := by
  have hchars : ∀ x ∈ tableLine widths b, x = '+' ∨ x = (if b then '=' else '-') := by
    intro x hx
    rw [tableLine_eq widths b h] at hx
    rcases mem_joinSep ['+'] _ x hx with h1 | ⟨p, hp, hxp⟩
    · simp at h1
      exact Or.inl h1
    · rcases List.mem_append.mp hp with h2 | h2
      · rcases List.mem_append.mp h2 with h3 | h3
        · simp at h3
          subst h3
          simp at hxp
        · rcases List.mem_map.mp h3 with ⟨w, _, he⟩
          subst he
          exact Or.inr (List.eq_of_mem_replicate hxp)
      · simp at h2
        subst h2
        simp at hxp
  have hnl : '\n' ∉ tableLine widths b := by
    intro hx
    rcases hchars '\n' hx with h1 | h1
    · exact absurd h1 (by decide)
    · cases b with
      | true => exact absurd h1 (by decide)
      | false => exact absurd h1 (by decide)
  unfold lineIsSeparator
  simp only [sep_core_eq _ hnl]
  obtain ⟨rest, hrest⟩ := tableLine_head widths b h
  rw [Bool.and_eq_true]
  constructor
  · rw [hrest]
    rfl
  · rw [List.all_eq_true]
    intro c hcm
    rcases hchars c hcm with h1 | h1
    · subst h1
      rfl
    · subst h1
      cases b with
      | true => rfl
      | false => rfl

theorem splitByP_flatten_snoc (nl : Line) (hnl : lineIsSeparator nl = true) :
    ∀ bs : List (List Line), (∀ b ∈ bs, ∀ l ∈ b, lineIsSeparator l = false) →
      splitByP lineIsSeparator ((bs.map (fun bb => bb ++ [nl])).flatten) = bs ++ [[]]
  | [], _ => rfl
  | b :: bs, hb => by
    rw [List.map_cons, List.flatten_cons,
      show (b ++ [nl]) ++ ((bs.map (fun bb => bb ++ [nl])).flatten)
        = b ++ nl :: ((bs.map (fun bb => bb ++ [nl])).flatten) by simp,
      splitByP_append_sep _ b nl _ (hb b (List.mem_cons_self b bs)) hnl,
      splitByP_flatten_snoc nl hnl bs (fun b' hb' => hb b' (List.mem_cons_of_mem b hb'))]
    rfl

theorem partition_out (hl nl : Line) (blocks : List (List Line))
    (hhl : lineIsSeparator hl = true) (hnl2 : lineIsSeparator nl = true)
    (hbs : ∀ b ∈ blocks, b ≠ [] ∧ ∀ l ∈ b, lineIsSeparator l = false) :
    partitionRawLines (hl :: interleaveSeps hl nl blocks) = blocks := by
  unfold partitionRawLines
  rw [if_pos (by unfold hasLineSeps; simp [hhl])]
  rw [splitByP_cons, if_pos hhl]
  cases blocks with
  | nil =>
    show ([] :: splitByP lineIsSeparator []).filter (fun p => !p.isEmpty) = []
    rfl
  | cons b0 bs =>
    rw [interleaveSeps_cons,
      show b0 ++ [hl] ++ ((bs.map (fun bb => bb ++ [nl])).flatten)
        = b0 ++ hl :: ((bs.map (fun bb => bb ++ [nl])).flatten) by simp,
      splitByP_append_sep _ b0 hl _ (hbs b0 (List.mem_cons_self b0 bs)).2 hhl,
      splitByP_flatten_snoc nl hnl2 bs
        (fun b' hb' => (hbs b' (List.mem_cons_of_mem b0 hb')).2)]
    rw [List.filter_cons_of_neg (by simp),
      List.filter_cons_of_pos
        (by simp [List.isEmpty_iff, (hbs b0 (List.mem_cons_self b0 bs)).1]),
      List.filter_append]
    have h1 : bs.filter (fun p => !p.isEmpty) = bs := by
      rw [List.filter_eq_self]
      intro b' hb'
      simp [List.isEmpty_iff, (hbs b' (List.mem_cons_of_mem b0 hb')).1]
    have h2 : ([([] : List Line)] : List (List Line)).filter (fun p => !p.isEmpty) = [] := rfl
    rw [h1, h2, List.append_nil]

/-! ### `unify_table`: invariant transfer and fixed point -/

theorem padRow_getD (n : Nat) (r : Row) (i : Nat) :
    (padRow n r).getD i [] = r.getD i [] := by
  unfold padRow
  by_cases hi : i < r.length
  · exact List.getD_append r _ [] i hi
  · rw [List.getD_eq_default r [] (by omega), List.getD_append_right r _ [] i (by omega)]
    by_cases hi2 : i - r.length < n - r.length
    · rw [List.getD_eq_getElem _ _ (by simpa using hi2)]
      simp
    · rw [List.getD_eq_default _ _ (by simpa using hi2)]

theorem unifyTable_ne_nil (t : Table) (u : Table) (h : unifyTable t = some u) : t ≠ [] := by
  intro hc
  subst hc
  simp [unifyTable, listMax] at h

theorem unify_inv (t u : Table) (h : unifyTable t = some u)
    (hc : ∀ r ∈ t, ∀ c ∈ r, InvCell c) :
    u.length = t.length
    ∧ (∀ r ∈ u, r.length = (keepIdx t).length)
    ∧ (∀ r ∈ u, ∀ c ∈ r, InvCell c)
    ∧ ∀ j, j < (keepIdx t).length → ∃ r ∈ u, ¬ (trim (r.getD j [])).isEmpty = true := by
  have hne : t ≠ [] := unifyTable_ne_nil t u h
  rw [unifyTable_eq t hne] at h
  have hu : u = (paddedT t).map (fun r => (keepIdx t).map (fun i => r.getD i [])) := by
    simpa using h.symm
  subst hu
  refine ⟨by simp [paddedT], ?_, ?_, ?_⟩
  · intro r hr
    rcases List.mem_map.mp hr with ⟨pr, _, he⟩
    rw [← he]
    simp
  · intro r hr c hcm
    rcases List.mem_map.mp hr with ⟨pr, hpr, he⟩
    subst he
    rcases List.mem_map.mp hcm with ⟨i, _, hce⟩
    rcases List.mem_map.mp hpr with ⟨r0, hr0, hpe⟩
    subst hpe
    rw [padRow_getD] at hce
    subst hce
    by_cases hi : i < r0.length
    · apply hc r0 hr0
      rw [List.getD_eq_getElem _ _ hi]
      exact List.getElem_mem hi
    · rw [List.getD_eq_default _ _ (by omega)]
      exact Or.inl rfl
  · intro j hj
    set i := (keepIdx t).getD j 0 with hidef
    have him : i ∈ keepIdx t := by
      rw [hidef, List.getD_eq_getElem _ _ hj]
      exact List.getElem_mem hj
    have hie : emptyColB t i = false := by
      have := List.mem_filter.mp him
      have h2 := this.2
      cases hb : emptyColB t i
      · rfl
      · rw [hb] at h2
        simp at h2
    have hex : ∃ pr ∈ paddedT t, ¬ (trim (pr.getD i [])).isEmpty = true := by
      unfold emptyColB at hie
      by_contra hcon
      push_neg at hcon
      have : (paddedT t).all (fun r => (trim (r.getD i [])).isEmpty) = true := by
        rw [List.all_eq_true]
        intro pr hpr
        exact hcon pr hpr
      rw [this] at hie
      simp at hie
    obtain ⟨pr, hpr, hprb⟩ := hex
    refine ⟨(keepIdx t).map (fun i' => pr.getD i' []), List.mem_map_of_mem _ hpr, ?_⟩
    rw [getD_map_lt _ (keepIdx t) j hj 0, ← hidef]
    exact hprb

theorem unify_fixed (T : Table) (n : Nat) (hne : T ≠ []) (_hn : 0 < n)
    (hrows : ∀ r ∈ T, r.length = n)
    (hcols : ∀ j, j < n → ∃ r ∈ T, ¬ (trim (r.getD j [])).isEmpty = true) :
    unifyTable T = some T := by
  have hm : maxLenR T = n := maxLenR_all_eq T n hne hrows
  have hpad : paddedT T = T := by
    unfold paddedT
    rw [hm]
    have h1 : ∀ r ∈ T, padRow n r = r := by
      intro r hr
      unfold padRow
      rw [hrows r hr]
      simp
    calc T.map (padRow n) = T.map id := List.map_congr_left h1
    _ = T := List.map_id T
  have hkeep : keepIdx T = List.range n := by
    unfold keepIdx
    rw [hm, List.filter_eq_self]
    intro i hi
    have hin : i < n := List.mem_range.mp hi
    obtain ⟨r, hr, hrb⟩ := hcols i hin
    have hec : emptyColB T i = false := by
      unfold emptyColB
      rw [hpad]
      cases hb : T.all (fun r => (trim (r.getD i [])).isEmpty)
      · rfl
      · have := List.all_eq_true.mp hb r hr
        exact absurd this hrb
    rw [hec]
    rfl
  rw [unifyTable_eq T hne, hpad, hkeep]
  have h2 : ∀ r ∈ T, (List.range n).map (fun i => r.getD i []) = r := by
    intro r hr
    rw [show n = r.length from (hrows r hr).symm]
    exact map_getD_range r []
  rw [show T.map (fun r => (List.range n).map (fun i => r.getD i []))
      = T.map id from List.map_congr_left h2, List.map_id]

/-! ### Assembling the idempotence proof -/

theorem maxLenR_splitNL_pos (r : Row) (hne : r ≠ []) : 1 ≤ maxLenR (r.map splitNL) := by
  cases r with
  | nil => exact absurd rfl hne
  | cons c r' =>
    have h1 : (splitNL c).length ≤ maxLenR ((c :: r').map splitNL) := by
      apply len_le_maxLenR
      exact List.mem_map_of_mem splitNL (List.mem_cons_self c r')
    have h2 : 0 < (splitNL c).length := List.length_pos.mpr (splitByP_ne_nil _ _)
    omega

theorem rowLinesOf_ne_nil (r : Row) (hne : r ≠ []) : rowLinesOf r ≠ [] := by
  unfold rowLinesOf
  intro hcn
  rw [List.map_eq_nil_iff, List.range_eq_nil] at hcn
  have := maxLenR_splitNL_pos r hne
  omega

theorem splitRowIntoLines_some_ne (r : Row) (rls : List Row)
    (h : splitRowIntoLines r = some rls) : r ≠ [] := by
  intro hc
  rw [splitRowIntoLines_none r hc] at h
  simp at h

theorem partition_mem (raw : List Line) (part : List Line) (l : Line)
    (hpart : part ∈ partitionRawLines raw) (hl : l ∈ part) : l ∈ raw := by
  unfold partitionRawLines at hpart
  by_cases hs : hasLineSeps raw = true
  · rw [if_pos hs] at hpart
    have h1 : part ∈ splitByP lineIsSeparator raw := (List.mem_filter.mp hpart).1
    exact (splitByP_mem lineIsSeparator raw part l h1 hl).1
  · rw [if_neg hs] at hpart
    rcases List.mem_map.mp hpart with ⟨l', hl', he⟩
    subst he
    simp only [List.mem_singleton] at hl
    subst hl
    exact hl'

theorem joinRows_cells_inv (rows : List Row)
    (hf : ∀ rr ∈ rows, ∀ f ∈ rr, '\n' ∉ f ∧ '|' ∉ f) :
    ∀ c ∈ joinRows rows, InvCell c := by
  intro c hcm
  rw [joinRows_spec] at hcm
  rcases List.mem_map.mp hcm with ⟨i, _, he⟩
  subst he
  have hps : ∀ p ∈ collectL rows i, p ≠ [] ∧ trim p = p ∧ '\n' ∉ p ∧ '|' ∉ p := by
    intro p hp
    rcases List.mem_filterMap.mp hp with ⟨rr, hrr, hopt⟩
    cases hg : rr.get? i with
    | none =>
      rw [hg] at hopt
      simp at hopt
    | some f =>
      rw [hg, Option.some_bind] at hopt
      by_cases ht : (trim f).isEmpty = true
      · rw [if_pos ht] at hopt
        simp at hopt
      · rw [if_neg ht] at hopt
        have hpe : trim f = p := by simpa using hopt
        have hfm : f ∈ rr := List.get?_mem hg
        obtain ⟨hfn, hfb⟩ := hf rr hrr f hfm
        subst hpe
        refine ⟨by simpa [List.isEmpty_iff] using ht, trim_trim f, ?_, ?_⟩
        · intro hx
          exact hfn (mem_trim f '\n' hx)
        · intro hx
          exact hfb (mem_trim f '|' hx)
  cases hcl : collectL rows i with
  | nil => exact Or.inl rfl
  | cons p ps' =>
    rw [hcl] at hps
    exact Or.inr ⟨p :: ps', by simp, hps, rfl⟩

theorem parse_draw_inv (raw : List Line) (T : Table) (out : List Line)
    (hnl : ∀ l ∈ raw, '\n' ∉ l)
    (hp : parseTable raw = some T) (hd : drawTable T = some out) : InvTable T := by
  unfold parseTable at hp
  have hcells : ∀ r ∈ (partitionRawLines raw).map
      (fun part => joinRows (part.map splitTableRow)), ∀ c ∈ r, InvCell c := by
    intro r hr
    rcases List.mem_map.mp hr with ⟨part, hpart, he⟩
    subst he
    apply joinRows_cells_inv
    intro rr hrr f hfm
    rcases List.mem_map.mp hrr with ⟨l, hlm, hle⟩
    subst hle
    have hlr : l ∈ raw := partition_mem raw part l hpart hlm
    have hchar := fun x hx => splitTableRow_mem l f x hfm hx
    constructor
    · intro hx
      exact hnl l hlr ((hchar '\n' hx).1)
    · intro hx
      exact (hchar '|' hx).2 rfl
  obtain ⟨hlen, hK, hcinv, hcol⟩ := unify_inv _ T hp hcells
  have hTne : T ≠ [] := by
    intro hc
    have h1 := unifyTable_ne_nil _ T hp
    apply h1
    apply List.length_eq_zero.mp
    rw [← hlen, hc]
    rfl
  obtain ⟨blocks, hb, _⟩ := drawTable_structure T out hTne hd
  obtain ⟨r0, hr0⟩ := List.exists_mem_of_ne_nil T hTne
  obtain ⟨b0, hb0⟩ := optMapM_forall _ T blocks hb r0 hr0
  obtain ⟨rls, _, hsplit, _, _⟩ := rowBlock_structure _ r0 b0 hb0
  have hr0ne : r0 ≠ [] := splitRowIntoLines_some_ne r0 rls hsplit
  have hKpos : 0 < (keepIdx ((partitionRawLines raw).map
      (fun part => joinRows (part.map splitTableRow)))).length := by
    have h1 := hK r0 hr0
    have h2 : 0 < r0.length := List.length_pos.mpr hr0ne
    omega
  exact ⟨hTne, _, hKpos, fun r hr => ⟨hK r hr, hcinv r hr⟩, hcol⟩

theorem blockOf_lines_ok (ws : List Nat) (r : Row) (n : Nat)
    (hrlen : r.length = n) (hn : 0 < n) (hws : n ≤ ws.length)
    (hc : ∀ c ∈ r, InvCell c) :
    blockOf ws r ≠ [] ∧ ∀ l ∈ blockOf ws r, lineIsSeparator l = false := by
  have hrne : r ≠ [] := by
    intro hce
    rw [hce] at hrlen
    simp at hrlen
    omega
  constructor
  · unfold blockOf
    intro hcn
    rw [List.map_eq_nil_iff] at hcn
    exact rowLinesOf_ne_nil r hrne hcn
  · intro l hlm
    rcases List.mem_map.mp hlm with ⟨rl, hrl, hle⟩
    subst hle
    obtain ⟨hlen, i, hie⟩ := rowLinesOf_row r rl hrl
    have hprlen : (padRowLine ws rl).length = rl.length := by
      unfold padRowLine
      rw [List.length_map, List.length_zip]
      omega
    have hprne : padRowLine ws rl ≠ [] := by
      intro hce
      rw [hce] at hprlen
      simp at hprlen
      omega
    have hbar : '|' ∈ barJoinRow (padRowLine ws rl) := by
      rw [barJoinRow_eq _ hprne]
      exact List.mem_cons_self _ _
    have hnonl : '\n' ∉ barJoinRow (padRowLine ws rl) := by
      intro hx
      rw [barJoinRow_eq _ hprne] at hx
      rcases List.mem_cons.mp hx with h1 | h1
      · exact absurd h1 (by decide)
      · rcases List.mem_append.mp h1 with h2 | h2
        · rcases mem_joinSep ['|'] _ '\n' h2 with h3 | ⟨p, hp, hxp⟩
          · simp at h3
          · rcases List.mem_map.mp hp with ⟨pp, hpp, hpe⟩
            subst hpe
            rcases mem_padOne pp.1 pp.2 '\n' hxp with h4 | h4
            · exact absurd h4 (by decide)
            · have hp1 : pp.1 ∈ rl := (List.of_mem_zip hpp).1
              rw [hie] at hp1
              rcases List.mem_map.mp hp1 with ⟨fl, hfl, hfe⟩
              rcases List.mem_map.mp hfl with ⟨c, hcr, hce⟩
              subst hce
              obtain ⟨htr, _, hnn⟩ := invCell_entry c (hc c hcr) i
              rw [← hfe, htr] at h4
              exact hnn h4
        · simp at h2
    exact lineIsSeparator_false_of _ hbar hnonl

theorem roundTrip (T : Table) (hinv : InvTable T) :
    ∃ out, drawTable T = some out ∧ parseTable out = some T := by
  obtain ⟨hTne, n, hn, hrows', hcols⟩ := hinv
  have hrows : ∀ r ∈ T, r.length = n := fun r hr => (hrows' r hr).1
  have hcells : ∀ r ∈ T, ∀ c ∈ r, InvCell c := fun r hr => (hrows' r hr).2
  have hwslen : (getColumnWidths T).length = n := by
    simp [getColumnWidths, maxLenR_all_eq T n hTne hrows]
  have hwsne : (getColumnWidths T).map (fun x => x + 2) ≠ [] := by
    intro hce
    have : ((getColumnWidths T).map (fun x => x + 2)).length = n := by simp [hwslen]
    rw [hce] at this
    simp at this
    omega
  refine ⟨_, draw_eq T n hTne hn hrows, ?_⟩
  unfold parseTable
  rw [partition_out _ _ (T.map (blockOf (getColumnWidths T)))
    (tableLine_is_sep _ true hwsne) (tableLine_is_sep _ false hwsne) ?hbs]
  · have hjoin : (T.map (blockOf (getColumnWidths T))).map
        (fun part => joinRows (part.map splitTableRow)) = T := by
      rw [List.map_map]
      have h1 : ∀ r ∈ T,
          ((fun part => joinRows (part.map splitTableRow)) ∘ blockOf (getColumnWidths T)) r
            = r := by
        intro r hr
        have hrne : r ≠ [] := by
          intro hce
          have := hrows r hr
          rw [hce] at this
          simp at this
          omega
        simp only [Function.comp]
        rw [block_split (getColumnWidths T) r n (hrows r hr) hn (by omega) (hcells r hr),
          joinRows_rowLinesOf r hrne (hcells r hr)]
      calc T.map ((fun part => joinRows (part.map splitTableRow)) ∘ blockOf (getColumnWidths T))
          = T.map id := List.map_congr_left h1
      _ = T := List.map_id T
    rw [hjoin]
    exact unify_fixed T n hTne hn hrows hcols
  case hbs =>
    intro b hbm
    rcases List.mem_map.mp hbm with ⟨r, hr, he⟩
    subst he
    exact blockOf_lines_ok (getColumnWidths T) r n (hrows r hr) hn (by omega) (hcells r hr)

/-- C2: for every selected block of newline-free raw lines on which the
pipeline succeeds, running the rendered output through the full
parse-then-draw pipeline again succeeds and returns the byte-identical list
of lines. -/
theorem C2_idempotent (raw out : List Line)
    (hnl : ∀ l ∈ raw, '\n' ∉ l)
    (h : reformatCore raw = some out) : reformatCore out = some out := by
  unfold reformatCore at h ⊢
  cases hp : parseTable raw with
  | none =>
    rw [hp] at h
    simp at h
  | some T =>
    rw [hp] at h
    simp only [Option.some_bind] at h
    have hinv := parse_draw_inv raw T out hnl hp h
    obtain ⟨out', hdr, hpr⟩ := roundTrip T hinv
    have hoe : out' = out := by
      rw [h] at hdr
      simpa using hdr.symm
    subst hoe
    rw [hpr]
    simpa using h

/-- C2 witness: the pipeline output for the spec's Example 1 input is a fixed
point of the pipeline. -/
theorem C2_witness :
    reformatCore [("+====+===+").toList, ("| a  | b |").toList, ("+====+===+").toList,
        ("| cc | d |").toList, ("+----+---+").toList]
      = some [("+====+===+").toList, ("| a  | b |").toList, ("+====+===+").toList,
        ("| cc | d |").toList, ("+----+---+").toList] :=
  C2_idempotent [("a  b").toList, ("cc  d").toList] _ (by decide) (by decide)

end RstTables
